import Mathlib

/-! blipper: repository activity scoring

A shallow embedding of the scoring core of `blipper` (`src/types/root.go`,
`src/utils/root.go`, `src/main.go`) together with theorems about it.

Conventions of the embedding

* Go `int64` (and `int`, taken to be 64 bits wide as on amd64/arm64) values are
  modelled as `Int`; every arithmetic operation of the source that can overflow
  is followed by `wrap64`, the reduction to the two's-complement range
  `[-2^63, 2^63)`.
* A Go `panic` is modelled by `Except.error` carrying the panic message.
* A Go slice is a `List`; a Go `map[string]Repository` is an association list
  with pairwise distinct keys (`RepoMap`).
-/

set_option linter.dupNamespace false

namespace Blipper

/-! ## Machine integers -/

/-- Reduction of an integer to the `int64` range `[-2^63, 2^63)` (two's complement
wrap-around, the behaviour of Go's `+`, `-`, `*` on `int64`). -/
def wrap64 (x : Int) : Int :=
  (x + 9223372036854775808) % 18446744073709551616 - 9223372036854775808

/-- The values representable as a Go `int64`. -/
def InInt64 (x : Int) : Prop :=
  -9223372036854775808 ≤ x ∧ x < 9223372036854775808

instance (x : Int) : Decidable (InInt64 x) := by
  unfold InInt64; infer_instance

/-- Equality of results is decidable, so that closed instances can be evaluated. -/
instance instDecidableEqExcept {ε α : Type} [DecidableEq ε] [DecidableEq α] :
    DecidableEq (Except ε α)
  | .ok a, .ok b =>
    if h : a = b then isTrue (by rw [h]) else isFalse (fun h2 => by cases h2; exact h rfl)
  | .error a, .error b =>
    if h : a = b then isTrue (by rw [h]) else isFalse (fun h2 => by cases h2; exact h rfl)
  | .ok _, .error _ => isFalse (fun h => by cases h)
  | .error _, .ok _ => isFalse (fun h => by cases h)

/-! ## Data model (`src/types/root.go`) -/

/-- Go `types.Commit`. -/
structure Commit where
  Timestamp : Int
  User : String
  Repository : String
  Files : Int
  Additions : Int
  Deletions : Int
  deriving DecidableEq, Repr

/-- Go `types.Repository`. -/
structure Repository where
  Repository : String
  Score : Int
  Commits : List Commit
  deriving DecidableEq, Repr

/-- The message of the error built by `fmt.Errorf("TypeError: unsupported type: %s", f)`. -/
def unsupported (f : String) : String :=
  "TypeError: unsupported type: " ++ f

/-- One iteration of the loop of `Repository.ScoreByFilter`: the `switch f` applied to
the running total `s` and the commit `i`; `len` is `len(c)`. -/
def scoreStep (f : String) (len : Nat) (s : Int) (i : Commit) : Except String Int :=
  match f with
  | "timestamp" => .ok (wrap64 (s + i.Timestamp))
  | "files" => .ok (wrap64 (s + i.Files))
  | "additions" => .ok (wrap64 (s + i.Additions))
  | "deletions" => .ok (wrap64 (s + i.Deletions))
  | "users" => .ok (wrap64 (s + 1))
  | "commits" => .ok (len : Int)
  | _ => .error (unsupported f)

/-- Go `func (r *Repository) ScoreByFilter(f string) int64`. -/
def ScoreByFilter (r : Repository) (f : String) : Except String Int :=
  r.Commits.foldlM (scoreStep f r.Commits.length) 0

/-- Go `func (c *Commit) GetValue(k string) (int64, error)`: the pair of the two return
values; the error is `none` for Go's `nil` and `some msg` for an error with message
`msg`. -/
def GetValue (c : Commit) (k : String) : Int × Option String :=
  match k with
  | "timestamp" => (c.Timestamp, none)
  | "files" => (c.Files, none)
  | "additions" => (c.Additions, none)
  | "deletions" => (c.Deletions, none)
  | _ => (0, some (unsupported k))

/-- The test `max >= c.Timestamp && c.Timestamp >= min` of the loop body of
`Commit.ScoreByLastUpdate` for the loop counter `i`, with
`max := first + int64(i)*chunkDuration` and `min := first + int64(i+1)*chunkDuration`. -/
def inBucket (t first chunkDuration : Int) (i : Nat) : Bool :=
  let max := wrap64 (first + wrap64 ((i : Int) * chunkDuration))
  let min := wrap64 (first + wrap64 (((i + 1 : Nat) : Int) * chunkDuration))
  decide (max ≥ t ∧ t ≥ min)

/-- The loop of `Commit.ScoreByLastUpdate`: `i` is the loop counter, the first argument
the number of iterations left; `some i` is the early `return int64(i)`. -/
def bucketLoop (t first chunkDuration : Int) : Nat → Nat → Option Nat
  | 0, _ => none
  | k + 1, i =>
    if inBucket t first chunkDuration i then some i
    else bucketLoop t first chunkDuration k (i + 1)

/-- The bucket count used by `ScoreByLastUpdate`: `numberOfDays`, or `100` when it is
not positive. -/
def effectiveDays (numberOfDays : Int) : Int :=
  if numberOfDays ≤ 0 then 100 else numberOfDays

/-- The bucket test as the specification words it, in exact (unbounded) integer
arithmetic: `first + i*chunk >= t >= first + (i+1)*chunk`. -/
def exactInBucket (t first chunk : Int) (i : Nat) : Prop :=
  first + (i : Int) * chunk ≥ t ∧ t ≥ first + ((i : Int) + 1) * chunk

instance (t first chunk : Int) (i : Nat) : Decidable (exactInBucket t first chunk i) := by
  unfold exactInBucket; infer_instance

/-- Go `func (c *Commit) ScoreByLastUpdate(last, first, numberOfDays int64) int64`. -/
def ScoreByLastUpdate (c : Commit) (last first numberOfDays : Int) : Int :=
  let numberOfDays := effectiveDays numberOfDays
  let duration := wrap64 (last - first)
  let chunkDuration := wrap64 (Int.tdiv duration numberOfDays)
  match bucketLoop c.Timestamp first chunkDuration numberOfDays.toNat 0 with
  | some i => (i : Int)
  | none => 0

/-- Sum of an integer field over a commit list (exact, unbounded integers). -/
def fieldSum (g : Commit → Int) (cs : List Commit) : Int :=
  (cs.map g).sum

/-! ## The grouping map (`map[string]types.Repository`) -/

/-- A Go `map[string]types.Repository`, as an association list. -/
abbrev RepoMap := List (String × Repository)

/-- Lookup of a key: `v, ok := m[k]`. -/
def RepoMap.find? : RepoMap → String → Option Repository
  | [], _ => none
  | (k', v) :: rest, k => if k' = k then some v else RepoMap.find? rest k

/-- The Go map read `m[k]`: the stored value, or the zero `Repository` for an absent key. -/
def RepoMap.get (m : RepoMap) (k : String) : Repository :=
  match m.find? k with
  | some v => v
  | none => { Repository := "", Score := 0, Commits := [] }

/-- The Go map write `m[k] = v`: replaces the value of an existing key, adds a new key
otherwise. -/
def RepoMap.set : RepoMap → String → Repository → RepoMap
  | [], k, v => [(k, v)]
  | (k', v') :: rest, k, v =>
    if k' = k then (k, v) :: rest else (k', v') :: RepoMap.set rest k v

/-- The keys of the map. -/
def RepoMap.keys (m : RepoMap) : List String :=
  m.map Prod.fst

/-- Total number of commits held by the groups of a map. -/
def RepoMap.totalCommits (m : RepoMap) : Nat :=
  (m.map (fun kv => kv.2.Commits.length)).sum

/-- All commits held by the groups of a map, group after group. -/
def RepoMap.allCommits (m : RepoMap) : List Commit :=
  (m.map (fun kv => kv.2.Commits)).flatten

/-! ## `src/utils/root.go` -/

/-- Go `func GroupByRepository(c []types.Commit, debug bool) map[string]types.Repository`
(the `debug` flag only switches logging and is left out). -/
def GroupByRepository (c : List Commit) : RepoMap :=
  c.foldl
    (fun repoMap i =>
      repoMap.set i.Repository
        { Repository := i.Repository
          Score := 1
          Commits := (repoMap.get i.Repository).Commits ++ [i] })
    []

/-- Insertion step of the stable sort: `x` precedes every element of the sorted list
`ys` in the input, so it moves right only past elements that are strictly before it
according to `less`. -/
def insertStable {α : Type} (less : α → α → Bool) (x : α) : List α → List α
  | [] => [x]
  | y :: ys => if less y x then y :: insertStable less x ys else x :: y :: ys

/-- The standard library's `sort.SliceStable(xs, less)`, modelled by its contract: a
stable sort by the comparison `less` (realised as a stable insertion sort; for a
strict weak order every stable sort returns the same slice). -/
def SliceStable {α : Type} (less : α → α → Bool) : List α → List α
  | [] => []
  | x :: xs => insertStable less x (SliceStable less xs)

/-- Insertion step of `SliceStableM`; the comparison may panic. -/
def insertStableM {α : Type} (less : α → α → Except String Bool) (x : α) :
    List α → Except String (List α)
  | [] => .ok [x]
  | y :: ys =>
    match less y x with
    | .error e => .error e
    | .ok true =>
      match insertStableM less x ys with
      | .error e => .error e
      | .ok r => .ok (y :: r)
    | .ok false => .ok (x :: y :: ys)

/-- The stable sort `sort.SliceStable` with a comparison function that may panic: the
first panic of the comparison aborts the sort. The comparison is not called on
slices of fewer than two elements. -/
def SliceStableM {α : Type} (less : α → α → Except String Bool) :
    List α → Except String (List α)
  | [] => .ok []
  | x :: xs =>
    match SliceStableM less xs with
    | .error e => .error e
    | .ok s => insertStableM less x s

/-- Go `func SortByScore(repos []types.Repository)`; the slice is sorted in place, the
model returns its new contents. -/
def SortByScore (repos : List Repository) : List Repository :=
  SliceStable (fun i j => decide (i.Score > j.Score)) repos

/-- The comparison closure of `SortCommitsDecreasing`; `ErrorLogger(err)` panics when
`err` is not `nil`. -/
def commitLess (filter : String) (i j : Commit) : Except String Bool :=
  match GetValue i filter with
  | (_, some err) => .error err
  | (e, none) =>
    match GetValue j filter with
    | (_, some err) => .error err
    | (f, none) => .ok (decide (e > f))

/-- Go `func SortCommitsDecreasing(commits []types.Commit, filter string, debug bool)
[]types.Commit` (`ErrorLogger` panics on a non-nil error; logging is left out). -/
def SortCommitsDecreasing (commits : List Commit) (filter : String) :
    Except String (List Commit) :=
  let ok := ["timestamp", "files", "additions", "deletions", "users", "commits"].foldl
    (fun ok s => if filter = s then true else ok) false
  if !ok then .error (unsupported filter)
  else SliceStableM (commitLess filter) commits

/-! ## `src/main.go`: the composite score of one repository -/

/-- Indexing `xs[i]` of a Go slice; out of range is a run-time panic. -/
def index {α : Type} (xs : List α) (i : Nat) : Except String α :=
  match xs[i]? with
  | some x => .ok x
  | none => .error "runtime error: index out of range"

/-- Body of the loop `for _, c := range r.Commits` of `main`: the score is overwritten
by the recency term of `c`. -/
def recencyStep (sorted : List Commit) (numberOfDays : Int) (_score : Int) (c : Commit) :
    Except String Int :=
  match index sorted 0 with
  | .error e => .error e
  | .ok l =>
    match index sorted (sorted.length - 1) with
    | .error e => .error e
    | .ok f => .ok (wrap64 (100 - ScoreByLastUpdate c l.Timestamp f.Timestamp numberOfDays))

/-- Body of the loop over the five filters of `main`: `n` is the position of the filter
`s`, which selects the weight. -/
def weightStep (r : Repository) (score : Int) (ns : Nat × String) : Except String Int :=
  match ScoreByFilter r ns.2 with
  | .error e => .error e
  | .ok v =>
    if ns.1 = 0 then .ok (wrap64 (score + wrap64 (v * 10)))
    else if ns.1 = 3 then .ok (wrap64 (score + wrap64 (v * 5)))
    else if ns.1 = 4 then .ok (wrap64 (score + wrap64 (v * 2)))
    else .ok (wrap64 (score + wrap64 (v * 1)))

/-- The composite branch of `main` for one repository `r` of the grouping map: the value
of `r.Score` when `r` is appended to `repos`. `sorted` is the commit slice returned by
`SortCommitsDecreasing`. -/
def compositeScore (sorted : List Commit) (numberOfDays : Int) (r : Repository) :
    Except String Int :=
  match r.Commits.foldlM (recencyStep sorted numberOfDays) r.Score with
  | .error e => .error e
  | .ok base =>
    ["files", "additions", "deletions", "users", "commits"].enum.foldlM (weightStep r) base


/-- Body of the loop `for _, r := range repoMap` of the composite branch of `main`: the
entry `kr` of the map is scored, its commits are dropped unless `debug` is set, and it
is appended to `repos`. -/
def compositeStep (sorted : List Commit) (numberOfDays : Int) (debug : Bool)
    (repos : List Repository) (kr : String × Repository) : Except String (List Repository) :=
  match compositeScore sorted numberOfDays kr.2 with
  | .error e => .error e
  | .ok score =>
    .ok (repos ++ [{ Repository := kr.2.Repository
                     Score := score
                     Commits := if debug then kr.2.Commits else [] }])

/-- The composite branch of `main` from the loop over the grouping map to
`SortByScore(repos)`: the ranking. Go leaves the order in which `range repoMap` visits
the entries unspecified; `order` is the sequence of entries as visited, a permutation
of the entries of the map. `repos` starts as the `nil` slice. -/
def compositeRanking (sorted : List Commit) (numberOfDays : Int) (debug : Bool)
    (order : List (String × Repository)) : Except String (List Repository) :=
  match order.foldlM (compositeStep sorted numberOfDays debug) [] with
  | .error e => .error e
  | .ok repos => .ok (SortByScore repos)

/-- A commit without its timestamp (the timestamp set to `0`). -/
def eraseTimestamp (c : Commit) : Commit :=
  { c with Timestamp := 0 }

/-- The score that the specification's formula assigns to the repository `k` of a commit
sequence: `100 + 10*(sum of files) + (sum of additions) + (sum of deletions) +
7*(number of commits)` over the commits of `k`, reduced to the `int64` range. -/
def weightedScore (commits : List Commit) (k : String) : Int :=
  wrap64 (100 + 10 * fieldSum Commit.Files (commits.filter (fun c => decide (c.Repository = k)))
    + fieldSum Commit.Additions (commits.filter (fun c => decide (c.Repository = k)))
    + fieldSum Commit.Deletions (commits.filter (fun c => decide (c.Repository = k)))
    + 7 * ((commits.filter (fun c => decide (c.Repository = k))).length : Int))

/-- The reporting step `repos[0:9]` of `main`. A Go slice expression `s[0:9]` panics
unless `9 ≤ cap(s)`; `capacity` is the capacity of the backing array of `repos`, chosen
by the run time when `append` grows the slice, and the array holds zero values behind
the `len(repos)` elements of the slice. -/
def sliceTopNine (repos : List Repository) (capacity : Nat) :
    Except String (List Repository) :=
  if 9 ≤ capacity then
    .ok ((repos ++ List.replicate (capacity - repos.length)
      ({ Repository := "", Score := 0, Commits := [] } : Repository)).take 9)
  else .error "runtime error: slice bounds out of range [:9]"

/-! ## Ingestion (`parseCommits` of `src/main.go`, `ParseInt` and `ParseArgs` of
`src/utils/root.go`)

The standard library's `strconv.ParseInt(s, 0, 64)` is a parameter `strconvParseInt` of
the functions that call it: `.ok i` is the parsed value, `.error msg` a non-nil error. -/

/-- Go `func ParseInt(s string) (i int64)`: `ErrorLogger` panics on a parse error. -/
def ParseInt (strconvParseInt : String → Except String Int) (s : String) :
    Except String Int :=
  match strconvParseInt s with
  | .error err => .error err
  | .ok i => .ok i

/-- The call `parseInt(i[j])` of `parseCommits`. -/
def parseField (strconvParseInt : String → Except String Int) (i : List String) (j : Nat) :
    Except String Int :=
  match index i j with
  | .error e => .error e
  | .ok s => ParseInt strconvParseInt s

/-- Body of the loop of `parseCommits` for a row `i` with `n > 0`: the commit built from
the row. -/
def parseCommit (strconvParseInt : String → Except String Int) (i : List String) :
    Except String Commit :=
  match index i 1 with
  | .error e => .error e
  | .ok user =>
    match parseField strconvParseInt i 0 with
    | .error e => .error e
    | .ok timestamp =>
      match index i 2 with
      | .error e => .error e
      | .ok repository =>
        match parseField strconvParseInt i 3 with
        | .error e => .error e
        | .ok files =>
          match parseField strconvParseInt i 4 with
          | .error e => .error e
          | .ok additions =>
            match parseField strconvParseInt i 5 with
            | .error e => .error e
            | .ok deletions =>
              .ok { Timestamp := timestamp
                    User := if user = "" then "unknown" else user
                    Repository := repository
                    Files := files
                    Additions := additions
                    Deletions := deletions }

/-- One iteration of the loop `for n, i := range raw` of `parseCommits`. -/
def parseCommitsStep (strconvParseInt : String → Except String Int) (commits : List Commit)
    (ni : Nat × List String) : Except String (List Commit) :=
  if ni.1 > 0 then
    match parseCommit strconvParseInt ni.2 with
    | .error e => .error e
    | .ok commit => .ok (commits ++ [commit])
  else .ok commits

/-- Go `func parseCommits(raw [][]string) (commits []types.Commit)`. -/
def parseCommits (strconvParseInt : String → Except String Int) (raw : List (List String)) :
    Except String (List Commit) :=
  raw.enum.foldlM (parseCommitsStep strconvParseInt) []

/-- The commit that the specification assigns to a six-field row
`timestamp,user,repository,files,additions,deletions`, given the integer `val s` that
each numeric field `s` denotes: the fields in order, with an empty user replaced by
`"unknown"`. -/
def specRowCommit (val : String → Int) (row : List String) : Commit :=
  { Timestamp := val (row.getD 0 "")
    User := if row.getD 1 "" = "" then "unknown" else row.getD 1 ""
    Repository := row.getD 2 ""
    Files := val (row.getD 3 "")
    Additions := val (row.getD 4 "")
    Deletions := val (row.getD 5 "") }

/-- How a run ends when the function does not return: a panic with its message, or
`os.Exit` with its status code. -/
inductive Halt where
  | panic (msg : String)
  | exit (code : Nat)
  deriving DecidableEq, Repr

/-- The four variables that `ParseArgs` updates and returns. -/
structure ParsedArgs where
  filepath : String
  numberOfDays : Int
  scoringFilter : String
  debug : Bool
  deriving DecidableEq, Repr

/-- The loop `for n := range os.Args` of `ParseArgs` from position `n` on: the first
argument is the list `os.Args[n:]`, so that `os.Args[n+1]` is the head of its tail. -/
def parseArgsLoop (strconvParseInt : String → Except String Int) :
    List String → ParsedArgs → Except Halt ParsedArgs
  | [], st => .ok st
  | a :: rest, st =>
    match a with
    | "-h" | "--help" => .error (.exit 0)
    | "-f" | "--filename" =>
      match index rest 0 with
      | .error e => .error (.panic e)
      | .ok v => parseArgsLoop strconvParseInt rest { st with filepath := v }
    | "-n" | "--numberOfDays" =>
      match index rest 0 with
      | .error e => .error (.panic e)
      | .ok v =>
        match ParseInt strconvParseInt v with
        | .error e => .error (.panic e)
        | .ok k =>
          if k ≤ 0 then .error (.panic "number of days mus be bigger than 0")
          else parseArgsLoop strconvParseInt rest { st with numberOfDays := k }
    | "-t" | "--target" =>
      match index rest 0 with
      | .error e => .error (.panic e)
      | .ok v => parseArgsLoop strconvParseInt rest { st with scoringFilter := v }
    | "-v" | "--version" => .error (.exit 0)
    | "-d" | "--debug" => parseArgsLoop strconvParseInt rest { st with debug := true }
    | _ => parseArgsLoop strconvParseInt rest st

/-- Go `func ParseArgs(filepath, scoringFilter, version string, numberOfDays int64,
debug bool) (string, int64, string, bool)`, with `os.Args` as an argument; position `0`
of `os.Args` (the program name) is skipped. Printing is left out. -/
def ParseArgs (strconvParseInt : String → Except String Int) (osArgs : List String)
    (filepath scoringFilter _version : String) (numberOfDays : Int) (debug : Bool) :
    Except Halt (String × Int × String × Bool) :=
  match parseArgsLoop strconvParseInt (osArgs.drop 1)
      { filepath := filepath, numberOfDays := numberOfDays,
        scoringFilter := scoringFilter, debug := debug } with
  | .error h => .error h
  | .ok st => .ok (st.filepath, st.numberOfDays, st.scoringFilter, st.debug)

/-- Value of a string of decimal digits, `none` if a character is not a digit. -/
def digitsValue : List Char → Nat → Option Nat
  | [], acc => some acc
  | c :: cs, acc =>
    if c.isDigit then digitsValue cs (10 * acc + (c.toNat - 48)) else none

/-- The instance of `strconvParseInt` used in the closed examples: it accepts the plain
decimal `int64` literals (an optional `-`, then digits without a leading zero) and
agrees with `strconv.ParseInt(s, 0, 64)` on every string it accepts. -/
def parseDecimal (s : String) : Except String Int :=
  match s.data with
  | [] => .error "invalid syntax"
  | '-' :: ds =>
    match ds, digitsValue ds 0 with
    | [], _ => .error "invalid syntax"
    | '0' :: _ :: _, _ => .error "invalid syntax"
    | _, none => .error "invalid syntax"
    | _, some n =>
      if n ≤ 9223372036854775808 then .ok (-(n : Int)) else .error "value out of range"
  | ds =>
    match ds, digitsValue ds 0 with
    | '0' :: _ :: _, _ => .error "invalid syntax"
    | _, none => .error "invalid syntax"
    | _, some n =>
      if n < 9223372036854775808 then .ok (n : Int) else .error "value out of range"

/-! # Theorems -/

/-! ## Facts about `wrap64` -/

theorem wrap64_inInt64 (x : Int) : InInt64 (wrap64 x) := by
  unfold InInt64 wrap64; omega

theorem wrap64_of_inInt64 {x : Int} (h : InInt64 x) : wrap64 x = x := by
  unfold InInt64 at h; unfold wrap64; omega

theorem wrap64_add_wrap64_left (a b : Int) : wrap64 (wrap64 a + b) = wrap64 (a + b) := by
  unfold wrap64; omega

theorem wrap64_add_wrap64_right (a b : Int) : wrap64 (a + wrap64 b) = wrap64 (a + b) := by
  unfold wrap64; omega

/-! ## `ScoreByFilter` -/

/-- The loop of `ScoreByFilter` for a filter whose step adds `g i` to the total. -/
theorem foldlM_scoreStep_sum (f : String) (g : Commit → Int) (len : Nat)
    (hstep : ∀ s i, scoreStep f len s i = .ok (wrap64 (s + g i)))
    (cs : List Commit) (s : Int) :
    cs.foldlM (scoreStep f len) s = .ok (if cs = [] then s else wrap64 (s + fieldSum g cs)) := by
  induction cs generalizing s with
  | nil => rfl
  | cons c cs ih =>
    simp only [List.foldlM_cons, hstep, ih]
    show (Except.ok _ : Except String Int) = _
    congr 1
    by_cases h : cs = []
    · subst h; simp [fieldSum]
    · simp only [h, if_false, fieldSum, List.map_cons, List.sum_cons, wrap64_add_wrap64_left]
      simp [add_assoc]

theorem scoreByFilter_sum (f : String) (g : Commit → Int)
    (hstep : ∀ len s i, scoreStep f len s i = .ok (wrap64 (s + g i))) (r : Repository) :
    ScoreByFilter r f = .ok (wrap64 (fieldSum g r.Commits)) := by
  unfold ScoreByFilter
  rw [foldlM_scoreStep_sum f g _ (hstep _)]
  by_cases h : r.Commits = []
  · simp [h, fieldSum, wrap64]
  · simp [h]

theorem scoreByFilter_timestamp (r : Repository) :
    ScoreByFilter r "timestamp" = .ok (wrap64 (fieldSum Commit.Timestamp r.Commits)) :=
  scoreByFilter_sum "timestamp" Commit.Timestamp (fun _ _ _ => rfl) r

theorem scoreByFilter_files (r : Repository) :
    ScoreByFilter r "files" = .ok (wrap64 (fieldSum Commit.Files r.Commits)) :=
  scoreByFilter_sum "files" Commit.Files (fun _ _ _ => rfl) r

theorem scoreByFilter_additions (r : Repository) :
    ScoreByFilter r "additions" = .ok (wrap64 (fieldSum Commit.Additions r.Commits)) :=
  scoreByFilter_sum "additions" Commit.Additions (fun _ _ _ => rfl) r

theorem scoreByFilter_deletions (r : Repository) :
    ScoreByFilter r "deletions" = .ok (wrap64 (fieldSum Commit.Deletions r.Commits)) :=
  scoreByFilter_sum "deletions" Commit.Deletions (fun _ _ _ => rfl) r

theorem fieldSum_one (cs : List Commit) : fieldSum (fun _ => 1) cs = (cs.length : Int) := by
  induction cs with
  | nil => rfl
  | cons c cs ih =>
    simp only [fieldSum, List.map_cons, List.sum_cons, List.length_cons] at ih ⊢
    rw [ih]; push_cast; ring

theorem scoreByFilter_users (r : Repository) :
    ScoreByFilter r "users" = .ok (wrap64 (r.Commits.length : Int)) := by
  rw [scoreByFilter_sum "users" (fun _ => 1) (fun _ _ _ => rfl) r, fieldSum_one]

theorem foldlM_scoreStep_commits (len : Nat) (cs : List Commit) (s : Int) :
    cs.foldlM (scoreStep "commits" len) s = .ok (if cs = [] then s else (len : Int)) := by
  induction cs generalizing s with
  | nil => rfl
  | cons c cs ih =>
    have hstep : scoreStep "commits" len s c = .ok (len : Int) := rfl
    simp only [List.foldlM_cons, hstep, ih]
    show (Except.ok _ : Except String Int) = _
    by_cases h : cs = [] <;> simp [h]

theorem scoreByFilter_commits (r : Repository) :
    ScoreByFilter r "commits" = .ok (r.Commits.length : Int) := by
  unfold ScoreByFilter
  rw [foldlM_scoreStep_commits]
  by_cases h : r.Commits = [] <;> simp [h]

/-- C1 (counterexample): for the group of two commits that each touch `2^62` files, the
exact sum of the `files` field is `2^63`, but `ScoreByFilter` returns `-2^63`: the
running total of the source is an `int` and wraps around. -/
theorem scoreByFilter_files_overflow :
    ScoreByFilter
        { Repository := "r", Score := 1,
          Commits := [⟨1, "u", "r", 4611686018427387904, 0, 0⟩,
                      ⟨2, "u", "r", 4611686018427387904, 0, 0⟩] } "files"
      = .ok (-9223372036854775808) ∧
    fieldSum Commit.Files
        [⟨1, "u", "r", 4611686018427387904, 0, 0⟩,
         ⟨2, "u", "r", 4611686018427387904, 0, 0⟩] = 9223372036854775808 ∧
    ScoreByFilter
        { Repository := "r", Score := 1,
          Commits := [⟨1, "u", "r", 4611686018427387904, 0, 0⟩,
                      ⟨2, "u", "r", 4611686018427387904, 0, 0⟩] } "files"
      ≠ .ok (fieldSum Commit.Files
        [⟨1, "u", "r", 4611686018427387904, 0, 0⟩,
         ⟨2, "u", "r", 4611686018427387904, 0, 0⟩]) := by
  refine ⟨by decide, by decide, by decide⟩

/-- C1 (amended): for every repository and each of the metrics `timestamp`, `files`,
`additions`, `deletions`, `ScoreByFilter` returns the sum of that field over the commits
of the group reduced to the `int64` range by two's-complement wrap-around; whenever
the exact sum lies in the `int64` range (as for the empty group, sum `0`, or for
timestamps `100` and `200`, sum `300`) the result is the exact sum. -/
theorem scoreByFilter_field_sum (r : Repository) :
    (ScoreByFilter r "timestamp" = .ok (wrap64 (fieldSum Commit.Timestamp r.Commits)) ∧
      ScoreByFilter r "files" = .ok (wrap64 (fieldSum Commit.Files r.Commits)) ∧
      ScoreByFilter r "additions" = .ok (wrap64 (fieldSum Commit.Additions r.Commits)) ∧
      ScoreByFilter r "deletions" = .ok (wrap64 (fieldSum Commit.Deletions r.Commits))) ∧
    (InInt64 (fieldSum Commit.Timestamp r.Commits) →
      ScoreByFilter r "timestamp" = .ok (fieldSum Commit.Timestamp r.Commits)) ∧
    (InInt64 (fieldSum Commit.Files r.Commits) →
      ScoreByFilter r "files" = .ok (fieldSum Commit.Files r.Commits)) ∧
    (InInt64 (fieldSum Commit.Additions r.Commits) →
      ScoreByFilter r "additions" = .ok (fieldSum Commit.Additions r.Commits)) ∧
    (InInt64 (fieldSum Commit.Deletions r.Commits) →
      ScoreByFilter r "deletions" = .ok (fieldSum Commit.Deletions r.Commits)) := by
  refine ⟨⟨scoreByFilter_timestamp r, scoreByFilter_files r, scoreByFilter_additions r,
    scoreByFilter_deletions r⟩, ?_, ?_, ?_, ?_⟩
  · intro h; rw [scoreByFilter_timestamp, wrap64_of_inInt64 h]
  · intro h; rw [scoreByFilter_files, wrap64_of_inInt64 h]
  · intro h; rw [scoreByFilter_additions, wrap64_of_inInt64 h]
  · intro h; rw [scoreByFilter_deletions, wrap64_of_inInt64 h]

/-- C1 (witness): the group with timestamps `100` and `200` has the exact sum `300`,
which is in range, and `ScoreByFilter` returns it. -/
theorem scoreByFilter_field_sum_witness :
    InInt64 (fieldSum Commit.Timestamp
        [⟨100, "", "", 0, 0, 0⟩, ⟨200, "", "", 0, 0, 0⟩]) ∧
    ScoreByFilter
        { Repository := "", Score := 0,
          Commits := [⟨100, "", "", 0, 0, 0⟩, ⟨200, "", "", 0, 0, 0⟩] } "timestamp"
      = .ok 300 :=
  ⟨by decide,
   (scoreByFilter_field_sum
      { Repository := "", Score := 0,
        Commits := [⟨100, "", "", 0, 0, 0⟩, ⟨200, "", "", 0, 0, 0⟩] }).2.1 (by decide)⟩

/-- C2: for every repository (a Go slice has fewer than `2^63` elements),
`ScoreByFilter "users"` and `ScoreByFilter "commits"` both return the number of commits
of the group, whatever the user identifiers are; in particular both are `0` for the
empty group and they are equal to each other. -/
theorem scoreByFilter_users_commits (r : Repository)
    (hlen : r.Commits.length < 9223372036854775808) :
    ScoreByFilter r "users" = .ok (r.Commits.length : Int) ∧
    ScoreByFilter r "commits" = .ok (r.Commits.length : Int) ∧
    ScoreByFilter r "users" = ScoreByFilter r "commits" := by
  have hu : ScoreByFilter r "users" = .ok (r.Commits.length : Int) := by
    rw [scoreByFilter_users, wrap64_of_inInt64]
    unfold InInt64; omega
  exact ⟨hu, scoreByFilter_commits r, by rw [hu, scoreByFilter_commits]⟩

/-- C2 (witness): two commits by two different users score `2` under both metrics. -/
theorem scoreByFilter_users_commits_witness :
    [(⟨0, "user1", "", 0, 0, 0⟩ : Commit), ⟨0, "user2", "", 0, 0, 0⟩].length
      < 9223372036854775808 ∧
    ScoreByFilter
        { Repository := "", Score := 0,
          Commits := [⟨0, "user1", "", 0, 0, 0⟩, ⟨0, "user2", "", 0, 0, 0⟩] } "users"
      = .ok 2 ∧
    ScoreByFilter
        { Repository := "", Score := 0,
          Commits := [⟨0, "user1", "", 0, 0, 0⟩, ⟨0, "user2", "", 0, 0, 0⟩] } "commits"
      = .ok 2 :=
  have h := scoreByFilter_users_commits
    { Repository := "", Score := 0,
      Commits := [⟨0, "user1", "", 0, 0, 0⟩, ⟨0, "user2", "", 0, 0, 0⟩] } (by decide)
  ⟨by decide, h.1, h.2.1⟩

/-- On a group with at least one commit, an unsupported metric name makes `ScoreByFilter`
panic with the unsupported-type error. -/
theorem scoreByFilter_unsupported_of_ne_nil (r : Repository) (f : String)
    (hf : f ∉ ["timestamp", "files", "additions", "deletions", "users", "commits"])
    (hne : r.Commits ≠ []) :
    ScoreByFilter r f = .error ("TypeError: unsupported type: " ++ f) := by
  simp only [List.mem_cons, List.mem_singleton, List.not_mem_nil, or_false, not_or] at hf
  obtain ⟨h1, h2, h3, h4, h5, h6⟩ := hf
  have hstep : ∀ len s i, scoreStep f len s i = .error (unsupported f) := by
    intro len s i
    unfold scoreStep
    split <;> first | rfl | contradiction
  unfold ScoreByFilter
  cases hc : r.Commits with
  | nil => exact absurd hc hne
  | cons c cs =>
    simp only [List.foldlM_cons, hstep]
    rfl

/-- C3 (failing input): on the empty group the loop body, and with it the `default`
branch of the `switch`, is never reached: `ScoreByFilter` returns the score `0` for
the unsupported name `"invalid"` instead of failing. -/
theorem scoreByFilter_invalid_empty :
    ScoreByFilter { Repository := "r", Score := 1, Commits := [] } "invalid" = .ok 0 := by
  decide

/-! ## The grouping map and `GroupByRepository` -/

theorem RepoMap.find?_set (m : RepoMap) (k k' : String) (v : Repository) :
    (m.set k v).find? k' = if k = k' then some v else m.find? k' := by
  induction m with
  | nil => simp [RepoMap.set, RepoMap.find?]
  | cons kv rest ih =>
    obtain ⟨k0, v0⟩ := kv
    by_cases h0 : k0 = k
    · subst h0
      by_cases h1 : k0 = k' <;> simp [RepoMap.set, RepoMap.find?, h1]
    · by_cases h1 : k0 = k'
      · subst h1
        have : ¬ k = k0 := fun h => h0 h.symm
        simp [RepoMap.set, RepoMap.find?, h0, this]
      · simp [RepoMap.set, RepoMap.find?, h0, h1, ih]

theorem RepoMap.mem_keys_iff_find? (m : RepoMap) (k : String) :
    k ∈ m.keys ↔ m.find? k ≠ none := by
  induction m with
  | nil => simp [RepoMap.keys, RepoMap.find?]
  | cons kv rest ih =>
    obtain ⟨k0, v0⟩ := kv
    by_cases h0 : k0 = k
    · simp [RepoMap.keys, RepoMap.find?, h0]
    · have h0' : ¬ k = k0 := fun h => h0 h.symm
      simp only [RepoMap.keys, List.map_cons, List.mem_cons, h0', false_or, RepoMap.find?,
        h0, if_false]
      exact ih

theorem RepoMap.keys_set (m : RepoMap) (k : String) (v : Repository) :
    (m.set k v).keys = if k ∈ m.keys then m.keys else m.keys ++ [k] := by
  induction m with
  | nil => simp [RepoMap.set, RepoMap.keys]
  | cons kv rest ih =>
    obtain ⟨k0, v0⟩ := kv
    by_cases h0 : k0 = k
    · subst h0
      simp [RepoMap.set, RepoMap.keys]
    · have h0' : ¬ k = k0 := fun h => h0 h.symm
      simp only [RepoMap.keys] at ih
      simp only [RepoMap.set, h0, if_false, RepoMap.keys, List.map_cons, List.mem_cons, h0',
        false_or, ih]
      split <;> simp

theorem RepoMap.nodup_keys_set (m : RepoMap) (k : String) (v : Repository)
    (h : m.keys.Nodup) : (m.set k v).keys.Nodup := by
  rw [RepoMap.keys_set]
  split
  · exact h
  · rename_i hk
    rw [List.nodup_append]
    refine ⟨h, List.nodup_singleton k, ?_⟩
    intro a ha hb
    simp only [List.mem_singleton] at hb
    subst hb
    exact hk ha

theorem RepoMap.find?_of_mem (m : RepoMap) (h : m.keys.Nodup) (k : String) (v : Repository)
    (hm : (k, v) ∈ m) : m.find? k = some v := by
  induction m with
  | nil => simp at hm
  | cons kv rest ih =>
    obtain ⟨k0, v0⟩ := kv
    simp only [RepoMap.keys, List.map_cons, List.nodup_cons] at h
    rcases List.mem_cons.mp hm with heq | hin
    · cases heq
      simp [RepoMap.find?]
    · have hk : k0 ≠ k := by
        intro e
        subst e
        exact h.1 (List.mem_map.mpr ⟨(k0, v), hin, rfl⟩)
      simp only [RepoMap.find?, hk, if_false]
      exact ih h.2 hin

theorem RepoMap.mem_of_find? (m : RepoMap) (k : String) (v : Repository)
    (hm : m.find? k = some v) : (k, v) ∈ m := by
  induction m with
  | nil => simp [RepoMap.find?] at hm
  | cons kv rest ih =>
    obtain ⟨k0, v0⟩ := kv
    by_cases h0 : k0 = k
    · subst h0
      simp only [RepoMap.find?, if_true, Option.some.injEq] at hm
      subst hm
      exact List.mem_cons_self _ _
    · simp only [RepoMap.find?, h0, if_false] at hm
      exact List.mem_cons_of_mem _ (ih hm)

/-- One more commit: `GroupByRepository` processes its input from left to right. -/
theorem groupByRepository_append_singleton (cs : List Commit) (i : Commit) :
    GroupByRepository (cs ++ [i]) =
      (GroupByRepository cs).set i.Repository
        { Repository := i.Repository
          Score := 1
          Commits := ((GroupByRepository cs).get i.Repository).Commits ++ [i] } := by
  simp [GroupByRepository, List.foldl_append]

theorem filter_repository_eq_nil (cs : List Commit) (k : String)
    (h : k ∉ cs.map Commit.Repository) :
    cs.filter (fun c => decide (c.Repository = k)) = [] := by
  rw [List.filter_eq_nil_iff]
  intro c hc
  simp only [decide_eq_true_eq]
  intro e
  exact h (List.mem_map.mpr ⟨c, hc, e⟩)

/-- The value stored under each key by `GroupByRepository`. -/
theorem groupByRepository_find? (cs : List Commit) (k : String) :
    (GroupByRepository cs).find? k =
      if k ∈ cs.map Commit.Repository then
        some { Repository := k, Score := 1,
               Commits := cs.filter (fun c => decide (c.Repository = k)) }
      else none := by
  induction cs using List.reverseRecOn with
  | nil => simp [GroupByRepository, RepoMap.find?]
  | append_singleton cs i ih =>
    rw [groupByRepository_append_singleton, RepoMap.find?_set]
    by_cases hk : i.Repository = k
    · subst hk
      have hget : ((GroupByRepository cs).get i.Repository).Commits =
          cs.filter (fun c => decide (c.Repository = i.Repository)) := by
        unfold RepoMap.get
        rw [ih]
        split_ifs with hmem
        · rfl
        · exact (filter_repository_eq_nil cs _ hmem).symm
      simp [hget, List.filter_append]
    · have hk' : ¬ k = i.Repository := fun h => hk h.symm
      simp only [hk, if_false, ih, List.map_append, List.map_cons, List.map_nil,
        List.mem_append, List.mem_singleton, hk', or_false, List.filter_append]
      have : List.filter (fun c => decide (c.Repository = k)) [i] = [] := by
        simp [List.filter, hk]
      rw [this, List.append_nil]

theorem groupByRepository_nodup_keys (cs : List Commit) :
    (GroupByRepository cs).keys.Nodup := by
  induction cs using List.reverseRecOn with
  | nil => simp [GroupByRepository, RepoMap.keys]
  | append_singleton cs i ih =>
    rw [groupByRepository_append_singleton]
    exact RepoMap.nodup_keys_set _ _ _ ih

theorem groupByRepository_mem_keys (cs : List Commit) (k : String) :
    k ∈ (GroupByRepository cs).keys ↔ k ∈ cs.map Commit.Repository := by
  rw [RepoMap.mem_keys_iff_find?, groupByRepository_find?]
  split_ifs with h <;> simp [h]

theorem RepoMap.totalCommits_set (m : RepoMap) (k : String) (v : Repository) :
    (m.set k v).totalCommits + (m.get k).Commits.length
      = m.totalCommits + v.Commits.length := by
  induction m with
  | nil => simp [RepoMap.set, RepoMap.totalCommits, RepoMap.get, RepoMap.find?]
  | cons kv rest ih =>
    obtain ⟨k0, v0⟩ := kv
    by_cases h0 : k0 = k
    · simp [RepoMap.set, RepoMap.totalCommits, RepoMap.get, RepoMap.find?, h0]
      omega
    · have hget : RepoMap.get ((k0, v0) :: rest) k = RepoMap.get rest k := by
        simp [RepoMap.get, RepoMap.find?, h0]
      rw [hget]
      simp only [RepoMap.totalCommits] at ih
      simp only [RepoMap.set, h0, if_false, RepoMap.totalCommits, List.map_cons, List.sum_cons]
      omega

theorem RepoMap.allCommits_set (m : RepoMap) (k : String) (v : Repository) :
    ((m.set k v).allCommits ++ (m.get k).Commits).Perm (m.allCommits ++ v.Commits) := by
  induction m with
  | nil => simp [RepoMap.set, RepoMap.allCommits, RepoMap.get, RepoMap.find?]
  | cons kv rest ih =>
    obtain ⟨k0, v0⟩ := kv
    by_cases h0 : k0 = k
    · simp only [RepoMap.set, h0, if_true, RepoMap.allCommits, List.map_cons, List.flatten_cons,
        RepoMap.get, RepoMap.find?]
      have key : ∀ A B C : List Commit, ((A ++ B) ++ C).Perm ((C ++ B) ++ A) := by
        intro A B C
        have h1 : ((A ++ B) ++ C).Perm (C ++ (A ++ B)) := List.perm_append_comm
        have h2 : (C ++ (A ++ B)).Perm (C ++ (B ++ A)) :=
          (List.perm_append_comm : (A ++ B).Perm (B ++ A)).append_left C
        rw [List.append_assoc C B A]
        exact h1.trans h2
      exact key _ _ _
    · have hget : RepoMap.get ((k0, v0) :: rest) k = RepoMap.get rest k := by
        simp [RepoMap.get, RepoMap.find?, h0]
      rw [hget]
      simp only [RepoMap.allCommits] at ih
      simp only [RepoMap.set, h0, if_false, RepoMap.allCommits, List.map_cons, List.flatten_cons,
        List.append_assoc]
      exact ih.append_left _

theorem groupByRepository_totalCommits (cs : List Commit) :
    (GroupByRepository cs).totalCommits = cs.length := by
  induction cs using List.reverseRecOn with
  | nil => rfl
  | append_singleton cs i ih =>
    rw [groupByRepository_append_singleton]
    have h := RepoMap.totalCommits_set (GroupByRepository cs) i.Repository
      { Repository := i.Repository
        Score := 1
        Commits := ((GroupByRepository cs).get i.Repository).Commits ++ [i] }
    simp only [List.length_append, List.length_singleton] at h ⊢
    omega

theorem groupByRepository_allCommits (cs : List Commit) :
    (GroupByRepository cs).allCommits.Perm cs := by
  induction cs using List.reverseRecOn with
  | nil => exact List.Perm.refl _
  | append_singleton cs i ih =>
    rw [groupByRepository_append_singleton]
    have h := RepoMap.allCommits_set (GroupByRepository cs) i.Repository
      { Repository := i.Repository
        Score := 1
        Commits := ((GroupByRepository cs).get i.Repository).Commits ++ [i] }
    simp only at h
    have h2 : (((GroupByRepository cs).allCommits ++ [i]) ++
        ((GroupByRepository cs).get i.Repository).Commits).Perm
        ((GroupByRepository cs).allCommits ++
          (((GroupByRepository cs).get i.Repository).Commits ++ [i])) := by
      rw [List.append_assoc]
      exact List.perm_append_comm.append_left _
    exact ((List.perm_append_right_iff _).mp (h.trans h2.symm)).trans (ih.append_right _)

/-- C4: for every commit sequence `cs`, the keys of `GroupByRepository cs` are pairwise
distinct and are exactly the repository identifiers occurring in `cs` (none for the
empty sequence), and each such key `k` is mapped to the repository named `k` with
score `1` whose commits are the commits of `cs` with `Repository = k`, in input order. -/
theorem groupByRepository_spec (cs : List Commit) :
    (GroupByRepository cs).keys.Nodup ∧
    (∀ k, k ∈ (GroupByRepository cs).keys ↔ k ∈ cs.map Commit.Repository) ∧
    (∀ k, (GroupByRepository cs).find? k =
      if k ∈ cs.map Commit.Repository then
        some { Repository := k, Score := 1,
               Commits := cs.filter (fun c => decide (c.Repository = k)) }
      else none) ∧
    GroupByRepository [] = [] :=
  ⟨groupByRepository_nodup_keys cs, groupByRepository_mem_keys cs,
    groupByRepository_find? cs, rfl⟩

/-- C5: for every commit sequence `cs`, the lengths of the groups of
`GroupByRepository cs` add up to the length of `cs`, and the groups taken together are
a rearrangement of `cs`: no commit is lost or duplicated. -/
theorem groupByRepository_partition (cs : List Commit) :
    (GroupByRepository cs).totalCommits = cs.length ∧
    (GroupByRepository cs).allCommits.Perm cs :=
  ⟨groupByRepository_totalCommits cs, groupByRepository_allCommits cs⟩

/-! ## The stable sort -/

theorem insertStable_perm {α : Type} (less : α → α → Bool) (x : α) (ys : List α) :
    (insertStable less x ys).Perm (x :: ys) := by
  induction ys with
  | nil => exact List.Perm.refl _
  | cons y ys ih =>
    unfold insertStable
    split
    · exact (ih.cons y).trans (List.Perm.swap x y ys)
    · exact List.Perm.refl _

theorem sliceStable_perm {α : Type} (less : α → α → Bool) (xs : List α) :
    (SliceStable less xs).Perm xs := by
  induction xs with
  | nil => exact List.Perm.refl _
  | cons x xs ih =>
    unfold SliceStable
    exact (insertStable_perm less x _).trans (ih.cons x)

/-- Inserting into a list sorted by decreasing key keeps it sorted. -/
theorem insertStable_sorted {α : Type} (key : α → Int) (x : α) (ys : List α)
    (h : ys.Pairwise (fun a b => key a ≥ key b)) :
    (insertStable (fun a b => decide (key a > key b)) x ys).Pairwise
      (fun a b => key a ≥ key b) := by
  induction ys with
  | nil => simp [insertStable]
  | cons y ys ih =>
    rw [List.pairwise_cons] at h
    unfold insertStable
    split
    · rename_i hlt
      simp only [decide_eq_true_eq] at hlt
      rw [List.pairwise_cons]
      refine ⟨?_, ih h.2⟩
      intro b hb
      rcases List.mem_cons.mp ((insertStable_perm _ x ys).subset hb) with hbx | hby
      · subst hbx; omega
      · exact h.1 b hby
    · rename_i hlt
      simp only [decide_eq_true_eq] at hlt
      rw [List.pairwise_cons]
      refine ⟨?_, List.pairwise_cons.mpr h⟩
      intro b hb
      rcases List.mem_cons.mp hb with hby | hby
      · subst hby; omega
      · have := h.1 b hby
        omega

theorem sliceStable_sorted {α : Type} (key : α → Int) (xs : List α) :
    (SliceStable (fun a b => decide (key a > key b)) xs).Pairwise
      (fun a b => key a ≥ key b) := by
  induction xs with
  | nil => exact List.Pairwise.nil
  | cons x xs ih =>
    unfold SliceStable
    exact insertStable_sorted key x _ ih

/-- Insertion does not move `x` past an element with the same key: the elements of any
one key keep their order. -/
theorem insertStable_filter {α : Type} (key : α → Int) (s : Int) (x : α) (ys : List α) :
    (insertStable (fun a b => decide (key a > key b)) x ys).filter
        (fun a => decide (key a = s))
      = (x :: ys).filter (fun a => decide (key a = s)) := by
  induction ys with
  | nil => rfl
  | cons y ys ih =>
    unfold insertStable
    split
    · rename_i hlt
      simp only [decide_eq_true_eq] at hlt
      rw [List.filter_cons, ih]
      by_cases hx : key x = s
      · have hy : ¬ key y = s := by omega
        simp [List.filter_cons, hx, hy]
      · by_cases hy : key y = s <;> simp [List.filter_cons, hx, hy]
    · rfl

theorem sliceStable_filter {α : Type} (key : α → Int) (s : Int) (xs : List α) :
    (SliceStable (fun a b => decide (key a > key b)) xs).filter
        (fun a => decide (key a = s))
      = xs.filter (fun a => decide (key a = s)) := by
  induction xs with
  | nil => rfl
  | cons x xs ih =>
    unfold SliceStable
    rw [insertStable_filter, List.filter_cons, List.filter_cons, ih]

/-- Two elements of equal key keep their relative order. -/
theorem sliceStable_pair {α : Type} (key : α → Int) (xs : List α) (a b : α)
    (hab : key a = key b) (h : List.Sublist [a, b] xs) :
    List.Sublist [a, b] (SliceStable (fun a b => decide (key a > key b)) xs) := by
  have h1 : List.Sublist ([a, b].filter (fun c => decide (key c = key a)))
      (xs.filter (fun c => decide (key c = key a))) := h.filter _
  have h2 : [a, b].filter (fun c => decide (key c = key a)) = [a, b] := by
    simp [List.filter_cons, hab]
  rw [h2, ← sliceStable_filter key (key a) xs] at h1
  exact h1.trans (List.filter_sublist _)

/-- Two lists sorted by decreasing key that hold, for every key value, the same
elements in the same order are equal. -/
theorem sorted_stable_unique {α : Type} (key : α → Int) (ys zs : List α)
    (hy : ys.Pairwise (fun a b => key a ≥ key b))
    (hz : zs.Pairwise (fun a b => key a ≥ key b))
    (h : ∀ s : Int, ys.filter (fun a => decide (key a = s))
      = zs.filter (fun a => decide (key a = s))) : ys = zs := by
  induction ys generalizing zs with
  | nil =>
    cases zs with
    | nil => rfl
    | cons z zs =>
      have := h (key z)
      simp [List.filter_cons] at this
  | cons y ys ih =>
    cases zs with
    | nil =>
      have := h (key y)
      simp [List.filter_cons] at this
    | cons z zs =>
      have hy2 := List.pairwise_cons.mp hy
      have hz2 := List.pairwise_cons.mp hz
      have hzy : key y ≥ key z := by
        have hmem : z ∈ (y :: ys).filter (fun a => decide (key a = key z)) := by
          rw [h (key z)]; simp [List.filter_cons]
        rcases List.mem_cons.mp (List.mem_filter.mp hmem).1 with e | hin
        · rw [e]
        · exact hy2.1 z hin
      have hyz : key z ≥ key y := by
        have hmem : y ∈ (z :: zs).filter (fun a => decide (key a = key y)) := by
          rw [← h (key y)]; simp [List.filter_cons]
        rcases List.mem_cons.mp (List.mem_filter.mp hmem).1 with e | hin
        · rw [e]
        · exact hz2.1 y hin
      have hk : key z = key y := by omega
      have h0 := h (key y)
      simp only [List.filter_cons, hk, decide_True, if_true] at h0
      obtain ⟨e1, e2⟩ := List.cons.inj h0
      subst e1
      congr 1
      apply ih zs hy2.2 hz2.2
      intro s
      by_cases hs : key y = s
      · subst hs; exact e2
      · have := h s
        simpa [List.filter_cons, hs] using this

/-- The output of the stable sort is determined by its contract: every list that is
sorted by decreasing key and keeps, for each key value, the input order of the elements
with that key is the list computed by `SliceStable`. -/
theorem sliceStable_unique {α : Type} (key : α → Int) (xs ys : List α)
    (hy : ys.Pairwise (fun a b => key a ≥ key b))
    (h : ∀ s : Int, ys.filter (fun a => decide (key a = s))
      = xs.filter (fun a => decide (key a = s))) :
    ys = SliceStable (fun a b => decide (key a > key b)) xs :=
  sorted_stable_unique key ys _ hy (sliceStable_sorted key xs)
    (fun s => (h s).trans (sliceStable_filter key s xs).symm)

/-- C6: for every list of repositories, `SortByScore` leaves a permutation of the input
whose scores are non-increasing from front to back; scores `[50, 100, 25]` become
`[100, 50, 25]` and the empty list stays empty. -/
theorem sortByScore_perm_sorted (repos : List Repository) :
    (SortByScore repos).Perm repos ∧
    (SortByScore repos).Pairwise (fun a b => a.Score ≥ b.Score) ∧
    SortByScore [⟨"repo2", 50, []⟩, ⟨"repo1", 100, []⟩, ⟨"repo3", 25, []⟩]
      = [⟨"repo1", 100, []⟩, ⟨"repo2", 50, []⟩, ⟨"repo3", 25, []⟩] ∧
    SortByScore [] = [] :=
  ⟨sliceStable_perm _ repos, sliceStable_sorted Repository.Score repos, by decide, rfl⟩

/-- C7: `SortByScore` is stable: two repositories of equal score that occur in the input
in the order `a`, `b` occur in the output in the same order; more strongly, for every
score the repositories with that score appear in the output in their input order. -/
theorem sortByScore_stable (repos : List Repository) :
    (∀ a b : Repository, a.Score = b.Score → List.Sublist [a, b] repos →
      List.Sublist [a, b] (SortByScore repos)) ∧
    (∀ s : Int, (SortByScore repos).filter (fun r => decide (r.Score = s))
      = repos.filter (fun r => decide (r.Score = s))) :=
  ⟨fun a b hab h => sliceStable_pair Repository.Score repos a b hab h,
    fun s => sliceStable_filter Repository.Score s repos⟩

/-- C7 (witness): the stability test of the repository: `repo1` and `repo2` both score
`100` and keep their order. -/
theorem sortByScore_stable_witness :
    (⟨"repo1", 100, []⟩ : Repository).Score = (⟨"repo2", 100, []⟩ : Repository).Score ∧
    List.Sublist [⟨"repo1", 100, []⟩, ⟨"repo2", 100, []⟩]
      [(⟨"repo3", 50, []⟩ : Repository), ⟨"repo1", 100, []⟩, ⟨"repo2", 100, []⟩] ∧
    List.Sublist [⟨"repo1", 100, []⟩, ⟨"repo2", 100, []⟩]
      (SortByScore [⟨"repo3", 50, []⟩, ⟨"repo1", 100, []⟩, ⟨"repo2", 100, []⟩]) :=
  ⟨rfl, by decide,
    (sortByScore_stable [⟨"repo3", 50, []⟩, ⟨"repo1", 100, []⟩, ⟨"repo2", 100, []⟩]).1
      ⟨"repo1", 100, []⟩ ⟨"repo2", 100, []⟩ rfl (by decide)⟩

/-! ## `ScoreByLastUpdate` -/

theorem bucketLoop_some (t first chunk : Int) (k i j : Nat)
    (h : bucketLoop t first chunk k i = some j) :
    i ≤ j ∧ j < i + k ∧ inBucket t first chunk j = true ∧
      ∀ j2, i ≤ j2 → j2 < j → inBucket t first chunk j2 = false := by
  induction k generalizing i with
  | zero => simp [bucketLoop] at h
  | succ k ih =>
    unfold bucketLoop at h
    split at h
    · rename_i hin
      simp only [Option.some.injEq] at h
      subst h
      exact ⟨le_refl _, by omega, hin, fun j2 h1 h2 => by omega⟩
    · rename_i hin
      obtain ⟨h1, h2, h3, h4⟩ := ih (i + 1) h
      refine ⟨by omega, by omega, h3, ?_⟩
      intro j2 hj2 hlt
      by_cases e : j2 = i
      · subst e; simpa using hin
      · exact h4 j2 (by omega) hlt

theorem bucketLoop_none (t first chunk : Int) (k i : Nat)
    (h : bucketLoop t first chunk k i = none) :
    ∀ j, i ≤ j → j < i + k → inBucket t first chunk j = false := by
  induction k generalizing i with
  | zero => intro j h1 h2; omega
  | succ k ih =>
    unfold bucketLoop at h
    split at h
    · simp at h
    · rename_i hin
      intro j h1 h2
      by_cases e : j = i
      · subst e; simpa using hin
      · exact ih (i + 1) h j (by omega) (by omega)

theorem effectiveDays_pos (numberOfDays : Int) : 0 < effectiveDays numberOfDays := by
  unfold effectiveDays; split <;> omega

theorem effectiveDays_eq (numberOfDays : Int) :
    effectiveDays numberOfDays = if numberOfDays > 0 then numberOfDays else 100 := by
  unfold effectiveDays; split_ifs <;> omega

/-- C10: for every commit and all `last`, `first`, `numberOfDays`, the bucket index `r`
returned by `ScoreByLastUpdate` satisfies `0 ≤ r < n`, where `n` is `numberOfDays` when
that is positive and `100` otherwise; the result is never negative, wherever the
timestamp lies. -/
theorem scoreByLastUpdate_range (c : Commit) (last first numberOfDays : Int) :
    0 ≤ ScoreByLastUpdate c last first numberOfDays ∧
    ScoreByLastUpdate c last first numberOfDays
      < (if numberOfDays > 0 then numberOfDays else 100) := by
  rw [← effectiveDays_eq]
  have hpos := effectiveDays_pos numberOfDays
  unfold ScoreByLastUpdate
  simp only
  split
  · rename_i j hj
    have := (bucketLoop_some _ _ _ _ _ _ hj).2.1
    omega
  · exact ⟨le_refl _, hpos⟩

/-- The result of `ScoreByLastUpdate` in terms of the loop test: the least loop counter
below the bucket count that passes the test, and `0` when none passes. -/
theorem scoreByLastUpdate_least_inBucket (c : Commit) (last first numberOfDays : Int) :
    (∀ i : Nat, (i : Int) < effectiveDays numberOfDays →
      inBucket c.Timestamp first
        (wrap64 (Int.tdiv (wrap64 (last - first)) (effectiveDays numberOfDays))) i = true →
      (∀ j : Nat, j < i → inBucket c.Timestamp first
        (wrap64 (Int.tdiv (wrap64 (last - first)) (effectiveDays numberOfDays))) j = false) →
      ScoreByLastUpdate c last first numberOfDays = (i : Int)) ∧
    ((∀ i : Nat, (i : Int) < effectiveDays numberOfDays →
      inBucket c.Timestamp first
        (wrap64 (Int.tdiv (wrap64 (last - first)) (effectiveDays numberOfDays))) i = false) →
      ScoreByLastUpdate c last first numberOfDays = 0) := by
  have hpos := effectiveDays_pos numberOfDays
  constructor
  · intro i hi hin hleast
    unfold ScoreByLastUpdate
    simp only
    split
    · rename_i j hj
      obtain ⟨_, h2, h3, h4⟩ := bucketLoop_some _ _ _ _ _ _ hj
      have hij : ¬ j < i := fun hlt => by
        have := hleast j hlt
        rw [h3] at this
        exact Bool.noConfusion this
      have hji : ¬ i < j := fun hlt => by
        have := h4 i (Nat.zero_le _) hlt
        rw [hin] at this
        exact Bool.noConfusion this
      have : j = i := by omega
      rw [this]
    · rename_i hnone
      have := bucketLoop_none _ _ _ _ _ hnone i (Nat.zero_le _) (by omega)
      rw [hin] at this
      exact Bool.noConfusion this
  · intro hall
    unfold ScoreByLastUpdate
    simp only
    split
    · rename_i j hj
      obtain ⟨_, h2, h3, _⟩ := bucketLoop_some _ _ _ _ _ _ hj
      have := hall j (by omega)
      rw [h3] at this
      exact Bool.noConfusion this
    · rfl

theorem tdiv_bounds (d n : Int) (hn : 0 < n) :
    (0 ≤ d → 0 ≤ d.tdiv n ∧ n * d.tdiv n ≤ d) ∧
    (d ≤ 0 → d.tdiv n ≤ 0 ∧ d ≤ n * d.tdiv n) := by
  have key : ∀ e : Int, 0 ≤ e → 0 ≤ e.tdiv n ∧ n * e.tdiv n ≤ e := by
    intro e he
    have h1 := Int.tdiv_nonneg he (le_of_lt hn)
    have h2 := Int.tmod_add_tdiv e n
    have h3 := Int.tmod_nonneg n he
    exact ⟨h1, by omega⟩
  refine ⟨key d, ?_⟩
  intro hd
  obtain ⟨h1, h2⟩ := key (-d) (by omega)
  rw [Int.neg_tdiv] at h1 h2
  rw [mul_neg] at h2
  exact ⟨by omega, by omega⟩

/-- Multiples `i * chunk` with `0 ≤ i ≤ n` of `chunk = d / n` lie between `0` and `d`. -/
theorem mul_chunk_between (d n i : Int) (hn : 0 < n) (hi0 : 0 ≤ i) (hin : i ≤ n) :
    (0 ≤ d → 0 ≤ i * d.tdiv n ∧ i * d.tdiv n ≤ d) ∧
    (d ≤ 0 → i * d.tdiv n ≤ 0 ∧ d ≤ i * d.tdiv n) := by
  obtain ⟨hp, hm⟩ := tdiv_bounds d n hn
  constructor
  · intro hd
    obtain ⟨h1, h2⟩ := hp hd
    have h3 : i * d.tdiv n ≤ n * d.tdiv n := mul_le_mul_of_nonneg_right hin h1
    exact ⟨mul_nonneg hi0 h1, le_trans h3 h2⟩
  · intro hd
    obtain ⟨h1, h2⟩ := hm hd
    have h3 : n * d.tdiv n ≤ i * d.tdiv n := mul_le_mul_of_nonpos_right hin h1
    exact ⟨mul_nonpos_of_nonneg_of_nonpos hi0 h1, le_trans h2 h3⟩

/-- Without overflow of `last - first`, the bounds computed by the loop are the exact
integers `first + i * chunk`. -/
theorem wrap64_bound_exact (last first n i : Int) (hf : InInt64 first) (hl : InInt64 last)
    (hd : InInt64 (last - first)) (hn : 0 < n) (hi0 : 0 ≤ i) (hin : i ≤ n) :
    wrap64 (first + wrap64 (i * wrap64 (Int.tdiv (wrap64 (last - first)) n)))
      = first + i * (last - first).tdiv n := by
  rw [wrap64_of_inInt64 hd]
  obtain ⟨hp, hm⟩ := mul_chunk_between (last - first) n i hn hi0 hin
  obtain ⟨hp1, hm1⟩ := tdiv_bounds (last - first) n hn
  have hchunk : InInt64 ((last - first).tdiv n) := by
    unfold InInt64 at *
    rcases le_total 0 (last - first) with h | h
    · have h1 := hp1 h
      have : (last - first).tdiv n ≤ n * (last - first).tdiv n :=
        le_mul_of_one_le_left h1.1 (by omega)
      omega
    · have h1 := hm1 h
      have : n * (last - first).tdiv n ≤ (last - first).tdiv n :=
        mul_le_of_one_le_left h1.1 (by omega)
      omega
  rw [wrap64_of_inInt64 hchunk]
  have hmul : InInt64 (i * (last - first).tdiv n) := by
    unfold InInt64 at *
    rcases le_total 0 (last - first) with h | h
    · have := hp h; omega
    · have := hm h; omega
  rw [wrap64_of_inInt64 hmul]
  apply wrap64_of_inInt64
  unfold InInt64 at *
  rcases le_total 0 (last - first) with h | h
  · have := hp h; omega
  · have := hm h; omega

/-- Without overflow of `last - first`, the loop test is the exact bucket test. -/
theorem inBucket_eq_exact (t last first n : Int) (i : Nat) (hf : InInt64 first)
    (hl : InInt64 last) (hd : InInt64 (last - first)) (hn : 0 < n) (hi : (i : Int) < n) :
    inBucket t first (wrap64 (Int.tdiv (wrap64 (last - first)) n)) i
      = decide (exactInBucket t first ((last - first).tdiv n) i) := by
  unfold inBucket exactInBucket
  simp only
  rw [wrap64_bound_exact last first n i hf hl hd hn (by omega) (by omega),
    wrap64_bound_exact last first n ((i + 1 : Nat) : Int) hf hl hd hn (by omega) (by omega)]
  push_cast
  rfl

/-- C9 (counterexample): with `first = -2^62 - 2`, `last = 2^62`, two buckets and the
commit timestamp `2^62`, the difference `last - first = 2^63 + 2` overflows; no index
`i < 2` satisfies `first + i*chunk >= t >= first + (i+1)*chunk` for
`chunk = (last - first) / 2`, so the claim gives `0`, but the code returns `1`. -/
theorem scoreByLastUpdate_overflow :
    ScoreByLastUpdate ⟨4611686018427387904, "u", "r", 0, 0, 0⟩
        4611686018427387904 (-4611686018427387906) 2 = 1 ∧
    (∀ i : Nat, (i : Int) < 2 →
      ¬ exactInBucket 4611686018427387904 (-4611686018427387906)
          (Int.tdiv (4611686018427387904 - (-4611686018427387906)) 2) i) ∧
    InInt64 4611686018427387904 ∧ InInt64 (-4611686018427387906) := by
  refine ⟨by decide, ?_, by decide, by decide⟩
  intro i hi
  have h : i = 0 ∨ i = 1 := by omega
  rcases h with h | h <;> subst h <;> decide

/-- C9 (amended): for `int64` values `first` and `last` whose difference `last - first`
does not overflow, every commit timestamp `t` and every `numberOfDays`, with
`n = numberOfDays` if `numberOfDays > 0` and `n = 100` otherwise and
`chunk = (last - first) / n` by truncating division, `ScoreByLastUpdate` returns the
least index `i` with `0 ≤ i < n` and `first + i*chunk ≥ t ≥ first + (i+1)*chunk`, and
returns `0` when no such index exists. -/
theorem scoreByLastUpdate_least (c : Commit) (last first numberOfDays : Int)
    (hf : InInt64 first) (hl : InInt64 last) (hd : InInt64 (last - first)) :
    (∀ i : Nat, (i : Int) < (if numberOfDays > 0 then numberOfDays else 100) →
      exactInBucket c.Timestamp first
        ((last - first).tdiv (if numberOfDays > 0 then numberOfDays else 100)) i →
      (∀ j : Nat, j < i → ¬ exactInBucket c.Timestamp first
        ((last - first).tdiv (if numberOfDays > 0 then numberOfDays else 100)) j) →
      ScoreByLastUpdate c last first numberOfDays = (i : Int)) ∧
    ((∀ i : Nat, (i : Int) < (if numberOfDays > 0 then numberOfDays else 100) →
      ¬ exactInBucket c.Timestamp first
        ((last - first).tdiv (if numberOfDays > 0 then numberOfDays else 100)) i) →
      ScoreByLastUpdate c last first numberOfDays = 0) := by
  rw [← effectiveDays_eq]
  have hpos := effectiveDays_pos numberOfDays
  obtain ⟨h1, h2⟩ := scoreByLastUpdate_least_inBucket c last first numberOfDays
  constructor
  · intro i hi hin hleast
    apply h1 i hi
    · rw [inBucket_eq_exact _ _ _ _ _ hf hl hd hpos hi]
      exact decide_eq_true hin
    · intro j hj
      rw [inBucket_eq_exact _ _ _ _ _ hf hl hd hpos (by omega)]
      exact decide_eq_false (hleast j hj)
  · intro hall
    apply h2
    intro i hi
    rw [inBucket_eq_exact _ _ _ _ _ hf hl hd hpos hi]
    exact decide_eq_false (hall i hi)

/-- C9 (witness): with `first = 200`, `last = 100` and two buckets, `chunk = -50`; the
timestamp `120` fails the test of bucket `0` (`200 ≥ 120 ≥ 150`) and passes that of
bucket `1` (`150 ≥ 120 ≥ 100`), and `ScoreByLastUpdate` returns `1`. -/
theorem scoreByLastUpdate_least_witness :
    InInt64 200 ∧ InInt64 100 ∧ InInt64 (100 - 200) ∧
    exactInBucket 120 200 (Int.tdiv (100 - 200) 2) 1 ∧
    ¬ exactInBucket 120 200 (Int.tdiv (100 - 200) 2) 0 ∧
    ScoreByLastUpdate ⟨120, "u", "r", 0, 0, 0⟩ 100 200 2 = 1 :=
  ⟨by decide, by decide, by decide, by decide, by decide,
    (scoreByLastUpdate_least ⟨120, "u", "r", 0, 0, 0⟩ 100 200 2
      (by decide) (by decide) (by decide)).1 1 (by decide) (by decide)
      (fun j hj => by
        have h : j = 0 := by omega
        subst h
        decide)⟩

/-! ## `SortCommitsDecreasing` by timestamp and the composite score -/

theorem insertStableM_pure {α : Type} (lessM : α → α → Except String Bool)
    (less : α → α → Bool) (h : ∀ a b, lessM a b = .ok (less a b)) (x : α) (ys : List α) :
    insertStableM lessM x ys = .ok (insertStable less x ys) := by
  induction ys with
  | nil => rfl
  | cons y ys ih =>
    unfold insertStableM insertStable
    rw [h y x, ih]
    cases less y x <;> rfl

theorem sliceStableM_pure {α : Type} (lessM : α → α → Except String Bool)
    (less : α → α → Bool) (h : ∀ a b, lessM a b = .ok (less a b)) (xs : List α) :
    SliceStableM lessM xs = .ok (SliceStable less xs) := by
  induction xs with
  | nil => rfl
  | cons x xs ih =>
    unfold SliceStableM SliceStable
    rw [ih]
    exact insertStableM_pure lessM less h x _

theorem sortCommitsDecreasing_timestamp (commits : List Commit) :
    SortCommitsDecreasing commits "timestamp"
      = .ok (SliceStable (fun a b => decide (a.Timestamp > b.Timestamp)) commits) := by
  unfold SortCommitsDecreasing
  have hok : (["timestamp", "files", "additions", "deletions", "users", "commits"].foldl
      (fun ok s => if "timestamp" = s then true else ok) false) = true := by decide
  simp only [hok]
  exact sliceStableM_pure _ _ (fun _ _ => rfl) commits

/-- The loop over the commits of a non-empty group keeps only the recency term of the
last commit. -/
theorem foldlM_recencyStep (sorted : List Commit) (numberOfDays : Int) (l f : Commit)
    (hl : index sorted 0 = .ok l) (hf : index sorted (sorted.length - 1) = .ok f)
    (cs : List Commit) (c : Commit) (s : Int) :
    (cs ++ [c]).foldlM (recencyStep sorted numberOfDays) s
      = .ok (wrap64 (100 - ScoreByLastUpdate c l.Timestamp f.Timestamp numberOfDays)) := by
  have hstep : ∀ s c, recencyStep sorted numberOfDays s c
      = .ok (wrap64 (100 - ScoreByLastUpdate c l.Timestamp f.Timestamp numberOfDays)) := by
    intro s c
    unfold recencyStep
    rw [hl, hf]
  induction cs generalizing s with
  | nil =>
    simp only [List.nil_append, List.foldlM_cons, hstep]
    rfl
  | cons d cs ih =>
    simp only [List.cons_append, List.foldlM_cons, hstep]
    exact ih _

/-- The loop over the five weighted filters. -/
theorem foldlM_weightStep (r : Repository) (base F A D U C : Int)
    (hF : ScoreByFilter r "files" = .ok F) (hA : ScoreByFilter r "additions" = .ok A)
    (hD : ScoreByFilter r "deletions" = .ok D) (hU : ScoreByFilter r "users" = .ok U)
    (hC : ScoreByFilter r "commits" = .ok C) :
    ["files", "additions", "deletions", "users", "commits"].enum.foldlM (weightStep r) base
      = .ok (wrap64 (base + 10 * F + 1 * A + 1 * D + 5 * U + 2 * C)) := by
  simp only [List.enum, List.enumFrom, List.foldlM_cons, List.foldlM_nil, weightStep, hF, hA,
    hD, hU, hC]
  show (Except.ok _ : Except String Int) = _
  congr 1
  unfold wrap64
  omega

theorem index_zero_cons {α : Type} (x : α) (xs : List α) : index (x :: xs) 0 = .ok x := by
  simp [index]

theorem index_last_concat {α : Type} (xs : List α) (x : α) :
    index (xs ++ [x]) ((xs ++ [x]).length - 1) = .ok x := by
  unfold index
  have h : (xs ++ [x]).length - 1 = xs.length := by simp
  rw [h, List.getElem?_concat_length]

/-- In a non-empty slice sorted by decreasing timestamp, the element at index `0` carries
the latest timestamp and the element at index `len - 1` the earliest. -/
theorem sorted_first_last (xs : List Commit) (hne : xs ≠ [])
    (hs : xs.Pairwise (fun a b => a.Timestamp ≥ b.Timestamp)) :
    ∃ l f, index xs 0 = .ok l ∧ index xs (xs.length - 1) = .ok f ∧ l ∈ xs ∧ f ∈ xs ∧
      (∀ c ∈ xs, c.Timestamp ≤ l.Timestamp) ∧ (∀ c ∈ xs, f.Timestamp ≤ c.Timestamp) := by
  cases xs with
  | nil => exact absurd rfl hne
  | cons l t =>
    rcases List.eq_nil_or_concat (l :: t) with h | ⟨L, f, h⟩
    · exact absurd h hne
    · rw [List.concat_eq_append] at h
      refine ⟨l, f, index_zero_cons l t, ?_, List.mem_cons_self _ _, ?_, ?_, ?_⟩
      · rw [h]; exact index_last_concat L f
      · rw [h]; simp
      · intro c hc
        rcases List.mem_cons.mp hc with e | hin
        · rw [e]
        · exact (List.pairwise_cons.mp hs).1 c hin
      · intro c hc
        rw [h] at hs hc
        rcases List.mem_append.mp hc with hin | hin
        · exact (List.pairwise_append.mp hs).2.2 c hin f (by simp)
        · simp only [List.mem_singleton] at hin
          rw [hin]

/-- Every group built by `GroupByRepository` is the non-empty list of the commits of its
key. -/
theorem groupByRepository_mem (cs : List Commit) (k : String) (r : Repository)
    (h : (k, r) ∈ GroupByRepository cs) :
    r = { Repository := k, Score := 1,
          Commits := cs.filter (fun c => decide (c.Repository = k)) } ∧
    r.Commits ≠ [] := by
  have hfind := RepoMap.find?_of_mem _ (groupByRepository_nodup_keys cs) k r h
  rw [groupByRepository_find?] at hfind
  split_ifs at hfind with hk
  simp only [Option.some.injEq] at hfind
  refine ⟨hfind.symm, ?_⟩
  rw [← hfind]
  simp only [ne_eq, List.filter_eq_nil_iff, decide_eq_true_eq, not_forall, not_not]
  obtain ⟨c, hc, e⟩ := List.mem_map.mp hk
  exact ⟨c, hc, e⟩

/-- The composite score of a repository whose last commit is `c`. -/
theorem compositeScore_eq (sorted : List Commit) (numberOfDays : Int) (l f : Commit)
    (hl : index sorted 0 = .ok l) (hf : index sorted (sorted.length - 1) = .ok f)
    (r : Repository) (cs : List Commit) (c : Commit) (hr : r.Commits = cs ++ [c])
    (F A D U C : Int)
    (hF : ScoreByFilter r "files" = .ok F) (hA : ScoreByFilter r "additions" = .ok A)
    (hD : ScoreByFilter r "deletions" = .ok D) (hU : ScoreByFilter r "users" = .ok U)
    (hC : ScoreByFilter r "commits" = .ok C) :
    compositeScore sorted numberOfDays r
      = .ok (wrap64 ((100 - ScoreByLastUpdate c l.Timestamp f.Timestamp numberOfDays)
          + 10 * F + 1 * A + 1 * D + 5 * U + 2 * C)) := by
  unfold compositeScore
  rw [hr, foldlM_recencyStep sorted numberOfDays l f hl hf cs c r.Score]
  simp only
  rw [foldlM_weightStep r _ F A D U C hF hA hD hU hC]
  congr 1
  unfold wrap64
  omega

/-- C8 (counterexample): a single commit that touches `2^62` files. Its group has
`ScoreByLastUpdate = 0`, `ScoreByFilter` values `2^62`, `0`, `0`, `1`, `1`, so the
formula of the claim gives `100 + 10 * 2^62 + 5 + 2`; the code computes the weighted
sum in `int64` and ends with the score `-2^63 + 107`. -/
theorem compositeScore_overflow :
    SortCommitsDecreasing [⟨5, "u", "r", 4611686018427387904, 0, 0⟩] "timestamp"
      = .ok [⟨5, "u", "r", 4611686018427387904, 0, 0⟩] ∧
    GroupByRepository [⟨5, "u", "r", 4611686018427387904, 0, 0⟩]
      = [("r", ⟨"r", 1, [⟨5, "u", "r", 4611686018427387904, 0, 0⟩]⟩)] ∧
    ScoreByLastUpdate ⟨5, "u", "r", 4611686018427387904, 0, 0⟩ 5 5 100 = 0 ∧
    ScoreByFilter ⟨"r", 1, [⟨5, "u", "r", 4611686018427387904, 0, 0⟩]⟩ "files"
      = .ok 4611686018427387904 ∧
    ScoreByFilter ⟨"r", 1, [⟨5, "u", "r", 4611686018427387904, 0, 0⟩]⟩ "additions" = .ok 0 ∧
    ScoreByFilter ⟨"r", 1, [⟨5, "u", "r", 4611686018427387904, 0, 0⟩]⟩ "deletions" = .ok 0 ∧
    ScoreByFilter ⟨"r", 1, [⟨5, "u", "r", 4611686018427387904, 0, 0⟩]⟩ "users" = .ok 1 ∧
    ScoreByFilter ⟨"r", 1, [⟨5, "u", "r", 4611686018427387904, 0, 0⟩]⟩ "commits" = .ok 1 ∧
    compositeScore [⟨5, "u", "r", 4611686018427387904, 0, 0⟩] 100
        ⟨"r", 1, [⟨5, "u", "r", 4611686018427387904, 0, 0⟩]⟩
      = .ok (-9223372036854775701) ∧
    compositeScore [⟨5, "u", "r", 4611686018427387904, 0, 0⟩] 100
        ⟨"r", 1, [⟨5, "u", "r", 4611686018427387904, 0, 0⟩]⟩
      ≠ .ok ((100 - 0) + 10 * 4611686018427387904 + 1 * 0 + 1 * 0 + 5 * 1 + 2 * 1) := by
  refine ⟨by decide, by decide, by decide, by decide, by decide, by decide, by decide,
    by decide, by decide, by decide⟩

/-- C8 (amended): in composite mode, for every non-empty commit sequence the sort by
decreasing timestamp succeeds, and for every group of the grouping of the sorted
commits the final score is the value of
`(100 - ScoreByLastUpdate(last commit of the group; last = latest timestamp, first =
earliest timestamp, numberOfDays)) + 10*ScoreByFilter(files) + 1*ScoreByFilter(additions)
+ 1*ScoreByFilter(deletions) + 5*ScoreByFilter(users) + 2*ScoreByFilter(commits)`
reduced to the `int64` range by wrap-around, hence that value itself whenever it lies in
the `int64` range; the recency values of the earlier commits of the group do not
contribute. -/
theorem compositeScore_spec (commits : List Commit) (numberOfDays : Int)
    (hne : commits ≠ []) :
    ∃ sorted hi lo,
      SortCommitsDecreasing commits "timestamp" = .ok sorted ∧
      (hi ∈ commits.map Commit.Timestamp ∧ ∀ c ∈ commits, c.Timestamp ≤ hi) ∧
      (lo ∈ commits.map Commit.Timestamp ∧ ∀ c ∈ commits, lo ≤ c.Timestamp) ∧
      ∀ k r, (k, r) ∈ GroupByRepository sorted →
        ∃ lastc F A D U C,
          r.Commits.getLast? = some lastc ∧
          ScoreByFilter r "files" = .ok F ∧
          ScoreByFilter r "additions" = .ok A ∧
          ScoreByFilter r "deletions" = .ok D ∧
          ScoreByFilter r "users" = .ok U ∧
          ScoreByFilter r "commits" = .ok C ∧
          compositeScore sorted numberOfDays r
            = .ok (wrap64 ((100 - ScoreByLastUpdate lastc hi lo numberOfDays)
                + 10 * F + 1 * A + 1 * D + 5 * U + 2 * C)) ∧
          (InInt64 ((100 - ScoreByLastUpdate lastc hi lo numberOfDays)
                + 10 * F + 1 * A + 1 * D + 5 * U + 2 * C) →
            compositeScore sorted numberOfDays r
              = .ok ((100 - ScoreByLastUpdate lastc hi lo numberOfDays)
                + 10 * F + 1 * A + 1 * D + 5 * U + 2 * C)) := by
  have hperm : (SliceStable (fun a b => decide (a.Timestamp > b.Timestamp)) commits).Perm
      commits := sliceStable_perm _ commits
  have hsne : SliceStable (fun a b => decide (a.Timestamp > b.Timestamp)) commits ≠ [] := by
    intro h
    rw [h] at hperm
    exact hne hperm.symm.eq_nil
  obtain ⟨l, f, hl, hf, hlmem, hfmem, hmax, hmin⟩ :=
    sorted_first_last _ hsne (sliceStable_sorted Commit.Timestamp commits)
  refine ⟨_, l.Timestamp, f.Timestamp, sortCommitsDecreasing_timestamp commits,
    ⟨List.mem_map.mpr ⟨l, hperm.subset hlmem, rfl⟩,
      fun c hc => hmax c (hperm.symm.subset hc)⟩,
    ⟨List.mem_map.mpr ⟨f, hperm.subset hfmem, rfl⟩,
      fun c hc => hmin c (hperm.symm.subset hc)⟩, ?_⟩
  intro k r hmem
  obtain ⟨_, hrne⟩ := groupByRepository_mem _ k r hmem
  rcases List.eq_nil_or_concat r.Commits with h | ⟨cs, c, h⟩
  · exact absurd h hrne
  · rw [List.concat_eq_append] at h
    have hscore := compositeScore_eq _ numberOfDays l f hl hf r cs c h _ _ _ _ _
      (scoreByFilter_files r) (scoreByFilter_additions r) (scoreByFilter_deletions r)
      (scoreByFilter_users r) (scoreByFilter_commits r)
    refine ⟨c, _, _, _, _, _, ?_, scoreByFilter_files r, scoreByFilter_additions r,
      scoreByFilter_deletions r, scoreByFilter_users r, scoreByFilter_commits r, hscore, ?_⟩
    · rw [h]; exact List.getLast?_concat cs
    · intro hin
      rw [hscore, wrap64_of_inInt64 hin]

/-- C8 (witness): three commits of two repositories; the input is non-empty, the sort
succeeds, `r2` is one of the groups of the sorted commits, and its score is given by
the formula. -/
theorem compositeScore_spec_witness :
    [(⟨100, "a", "r1", 0, 0, 0⟩ : Commit), ⟨300, "b", "r2", 1, 2, 3⟩,
      ⟨200, "c", "r1", 0, 0, 0⟩] ≠ [] ∧
    ∃ sorted,
      SortCommitsDecreasing [⟨100, "a", "r1", 0, 0, 0⟩, ⟨300, "b", "r2", 1, 2, 3⟩,
        ⟨200, "c", "r1", 0, 0, 0⟩] "timestamp" = .ok sorted ∧
      ("r2", (⟨"r2", 1, [⟨300, "b", "r2", 1, 2, 3⟩]⟩ : Repository))
        ∈ GroupByRepository sorted ∧
      ∃ hi lo lastc F A D U C,
        ScoreByFilter ⟨"r2", 1, [⟨300, "b", "r2", 1, 2, 3⟩]⟩ "files" = .ok F ∧
        ScoreByFilter ⟨"r2", 1, [⟨300, "b", "r2", 1, 2, 3⟩]⟩ "additions" = .ok A ∧
        ScoreByFilter ⟨"r2", 1, [⟨300, "b", "r2", 1, 2, 3⟩]⟩ "deletions" = .ok D ∧
        ScoreByFilter ⟨"r2", 1, [⟨300, "b", "r2", 1, 2, 3⟩]⟩ "users" = .ok U ∧
        ScoreByFilter ⟨"r2", 1, [⟨300, "b", "r2", 1, 2, 3⟩]⟩ "commits" = .ok C ∧
        compositeScore sorted 100 ⟨"r2", 1, [⟨300, "b", "r2", 1, 2, 3⟩]⟩
          = .ok (wrap64 ((100 - ScoreByLastUpdate lastc hi lo 100)
              + 10 * F + 1 * A + 1 * D + 5 * U + 2 * C)) := by
  refine ⟨by decide, ?_⟩
  obtain ⟨sorted, hi, lo, hs, _, _, hall⟩ :=
    compositeScore_spec [⟨100, "a", "r1", 0, 0, 0⟩, ⟨300, "b", "r2", 1, 2, 3⟩,
      ⟨200, "c", "r1", 0, 0, 0⟩] 100 (by decide)
  have hs2 : SortCommitsDecreasing [⟨100, "a", "r1", 0, 0, 0⟩, ⟨300, "b", "r2", 1, 2, 3⟩,
      ⟨200, "c", "r1", 0, 0, 0⟩] "timestamp"
      = .ok [⟨300, "b", "r2", 1, 2, 3⟩, ⟨200, "c", "r1", 0, 0, 0⟩,
        ⟨100, "a", "r1", 0, 0, 0⟩] := by decide
  have he : sorted = [⟨300, "b", "r2", 1, 2, 3⟩, ⟨200, "c", "r1", 0, 0, 0⟩,
      ⟨100, "a", "r1", 0, 0, 0⟩] := Except.ok.inj (hs.symm.trans hs2)
  subst he
  have hm : ("r2", (⟨"r2", 1, [⟨300, "b", "r2", 1, 2, 3⟩]⟩ : Repository))
      ∈ GroupByRepository [⟨300, "b", "r2", 1, 2, 3⟩, ⟨200, "c", "r1", 0, 0, 0⟩,
        ⟨100, "a", "r1", 0, 0, 0⟩] := by decide
  obtain ⟨lastc, F, A, D, U, C, _, hF, hA, hD, hU, hC, hscore, _⟩ := hall _ _ hm
  exact ⟨_, hs, hm, hi, lo, lastc, F, A, D, U, C, hF, hA, hD, hU, hC, hscore⟩

/-! ## `ScoreByLastUpdate` on an ordered span, and the default bucket count -/

/-- For `first ≤ last` without overflow the loop of `ScoreByLastUpdate` can only stop at
the counter `0`. -/
theorem scoreByLastUpdate_eq_zero (c : Commit) (last first numberOfDays : Int)
    (hf : InInt64 first) (hl : InInt64 last) (hle : first ≤ last)
    (hd : InInt64 (last - first)) :
    ScoreByLastUpdate c last first numberOfDays = 0 := by
  have hpos := effectiveDays_pos numberOfDays
  have hchunk : 0 ≤ (last - first).tdiv (effectiveDays numberOfDays) :=
    ((tdiv_bounds (last - first) _ hpos).1 (by omega)).1
  unfold ScoreByLastUpdate
  simp only
  split
  · rename_i j hj
    obtain ⟨_, h2, h3, h4⟩ := bucketLoop_some _ _ _ _ _ _ hj
    have hjn : (j : Int) < effectiveDays numberOfDays := by omega
    rw [inBucket_eq_exact _ _ _ _ _ hf hl hd hpos hjn] at h3
    have hex := of_decide_eq_true h3
    unfold exactInBucket at hex
    have hzero : (last - first).tdiv (effectiveDays numberOfDays) = 0 := by
      have h5 : first + ((j : Int) + 1) * (last - first).tdiv (effectiveDays numberOfDays)
          ≤ first + (j : Int) * (last - first).tdiv (effectiveDays numberOfDays) :=
        le_trans hex.2 hex.1
      rw [add_mul, one_mul] at h5
      omega
    by_cases hj0 : j = 0
    · rw [hj0]; rfl
    · have h0 := h4 0 (Nat.zero_le _) (by omega)
      rw [inBucket_eq_exact _ _ _ _ _ hf hl hd hpos (by omega)] at h0
      have hnex := of_decide_eq_false h0
      exfalso
      apply hnex
      unfold exactInBucket
      rw [hzero] at hex ⊢
      simp only [mul_zero, add_zero] at hex ⊢
      exact hex
  · rfl

/-- C11: whenever `first ≤ last` (both `int64` values, `last - first` not overflowing),
`ScoreByLastUpdate` returns `0` for every commit timestamp and every `numberOfDays`. -/
theorem scoreByLastUpdate_ordered_zero (c : Commit) (last first numberOfDays : Int)
    (hf : InInt64 first) (hl : InInt64 last) (hle : first ≤ last)
    (hd : InInt64 (last - first)) :
    ScoreByLastUpdate c last first numberOfDays = 0 :=
  scoreByLastUpdate_eq_zero c last first numberOfDays hf hl hle hd

/-- C11 (witness): the boundary tests of the repository, `first = 100`, `last = 200`,
two buckets, timestamps `100`, `150`, `200`, `50` and `250`: all give `0`. -/
theorem scoreByLastUpdate_ordered_zero_witness :
    InInt64 100 ∧ InInt64 200 ∧ (100 : Int) ≤ 200 ∧ InInt64 (200 - 100) ∧
    ScoreByLastUpdate ⟨100, "", "", 0, 0, 0⟩ 200 100 2 = 0 ∧
    ScoreByLastUpdate ⟨150, "", "", 0, 0, 0⟩ 200 100 2 = 0 ∧
    ScoreByLastUpdate ⟨200, "", "", 0, 0, 0⟩ 200 100 2 = 0 ∧
    ScoreByLastUpdate ⟨50, "", "", 0, 0, 0⟩ 200 100 2 = 0 ∧
    ScoreByLastUpdate ⟨250, "", "", 0, 0, 0⟩ 200 100 2 = 0 :=
  ⟨by decide, by decide, by decide, by decide,
    scoreByLastUpdate_ordered_zero _ 200 100 2 (by decide) (by decide) (by decide) (by decide),
    scoreByLastUpdate_ordered_zero _ 200 100 2 (by decide) (by decide) (by decide) (by decide),
    scoreByLastUpdate_ordered_zero _ 200 100 2 (by decide) (by decide) (by decide) (by decide),
    scoreByLastUpdate_ordered_zero _ 200 100 2 (by decide) (by decide) (by decide) (by decide),
    scoreByLastUpdate_ordered_zero _ 200 100 2 (by decide) (by decide) (by decide) (by decide)⟩

/-- C12: for every commit, every `last` and `first` and every `numberOfDays ≤ 0`,
`ScoreByLastUpdate` behaves as with `numberOfDays = 100`: the divisor used is `100`, so
no division by zero can occur. -/
theorem scoreByLastUpdate_default_days (c : Commit) (last first numberOfDays : Int)
    (h : numberOfDays ≤ 0) :
    ScoreByLastUpdate c last first numberOfDays = ScoreByLastUpdate c last first 100 ∧
    effectiveDays numberOfDays = 100 := by
  have h1 : effectiveDays numberOfDays = 100 := by
    unfold effectiveDays; rw [if_pos h]
  have h2 : effectiveDays 100 = 100 := by decide
  refine ⟨?_, h1⟩
  unfold ScoreByLastUpdate
  rw [h1, h2]

/-- C12 (witness): the test `Zero days` of the repository, and a negative count. -/
theorem scoreByLastUpdate_default_days_witness :
    (0 : Int) ≤ 0 ∧
    ScoreByLastUpdate ⟨150, "", "", 0, 0, 0⟩ 200 100 0
      = ScoreByLastUpdate ⟨150, "", "", 0, 0, 0⟩ 200 100 100 ∧
    ScoreByLastUpdate ⟨120, "", "", 0, 0, 0⟩ 100 200 (-7)
      = ScoreByLastUpdate ⟨120, "", "", 0, 0, 0⟩ 100 200 100 :=
  ⟨by decide,
    (scoreByLastUpdate_default_days ⟨150, "", "", 0, 0, 0⟩ 200 100 0 (by decide)).1,
    (scoreByLastUpdate_default_days ⟨120, "", "", 0, 0, 0⟩ 100 200 (-7) (by decide)).1⟩

/-! ## `GetValue` -/

/-- C13: for every commit, `GetValue` returns the field named by `timestamp`, `files`,
`additions` or `deletions`, with a `nil` error. -/
theorem getValue_fields (c : Commit) :
    GetValue c "timestamp" = (c.Timestamp, none) ∧
    GetValue c "files" = (c.Files, none) ∧
    GetValue c "additions" = (c.Additions, none) ∧
    GetValue c "deletions" = (c.Deletions, none) :=
  ⟨rfl, rfl, rfl, rfl⟩

theorem getValue_unsupported (c : Commit) (k : String)
    (hk : k ∉ ["timestamp", "files", "additions", "deletions"]) :
    GetValue c k = (0, some ("TypeError: unsupported type: " ++ k)) := by
  simp only [List.mem_cons, List.mem_singleton, List.not_mem_nil, or_false, not_or] at hk
  obtain ⟨h1, h2, h3, h4⟩ := hk
  unfold GetValue
  split <;> first | rfl | contradiction

theorem getValue_supported (c : Commit) (k : String)
    (hk : k ∈ ["timestamp", "files", "additions", "deletions"]) :
    (GetValue c k).2 = none := by
  simp only [List.mem_cons, List.mem_singleton, List.not_mem_nil, or_false] at hk
  rcases hk with h | h | h | h <;> subst h <;> rfl

/-- C14: for every commit and every name `k`, `GetValue` returns a non-nil error if and
only if `k` is not one of `timestamp`, `files`, `additions`, `deletions` (so also for
`users` and `commits`); in that case the value returned is `0` and the message of the
error is `"TypeError: unsupported type: "` followed by `k`. -/
theorem getValue_error_iff (c : Commit) (k : String) :
    ((GetValue c k).2 ≠ none ↔ k ∉ ["timestamp", "files", "additions", "deletions"]) ∧
    (k ∉ ["timestamp", "files", "additions", "deletions"] →
      GetValue c k = (0, some ("TypeError: unsupported type: " ++ k))) ∧
    GetValue c "users" = (0, some "TypeError: unsupported type: users") ∧
    GetValue c "commits" = (0, some "TypeError: unsupported type: commits") := by
  refine ⟨⟨?_, ?_⟩, getValue_unsupported c k, rfl, rfl⟩
  · intro h hk
    exact h (getValue_supported c k hk)
  · intro hk
    rw [getValue_unsupported c k hk]
    simp

/-- C14 (witness): the test `InvalidKey` of the repository. -/
theorem getValue_error_iff_witness :
    "invalid" ∉ ["timestamp", "files", "additions", "deletions"] ∧
    GetValue ⟨1678886400, "testuser", "testrepo", 10, 20, 5⟩ "invalid"
      = (0, some "TypeError: unsupported type: invalid") :=
  ⟨by decide,
    (getValue_error_iff ⟨1678886400, "testuser", "testrepo", 10, 20, 5⟩ "invalid").2.1
      (by decide)⟩

/-! ## The reporting step `repos[0:9]` -/

/-- On fewer than nine repositories the slice expression never yields the available
repositories: it panics, or (with a capacity of nine or more) has nine elements. -/
theorem sliceTopNine_short (repos : List Repository) (capacity : Nat)
    (hlen : repos.length < 9) (hcap : repos.length ≤ capacity) :
    sliceTopNine repos capacity ≠ .ok (repos.take (min 9 repos.length)) := by
  unfold sliceTopNine
  split
  · rename_i h9
    intro h
    have hl := congrArg List.length (Except.ok.inj h)
    simp only [List.length_take, List.length_append, List.length_replicate] at hl
    omega
  · intro h
    cases h

/-- C15 (failing input): the empty ranking (a `nil` slice, capacity `0`) and a ranking
of three repositories (capacity `4` after three `append`s): `repos[0:9]` panics. -/
theorem sliceTopNine_panics :
    sliceTopNine [] 0 = .error "runtime error: slice bounds out of range [:9]" ∧
    sliceTopNine [⟨"a", 3, []⟩, ⟨"b", 2, []⟩, ⟨"c", 1, []⟩] 4
      = .error "runtime error: slice bounds out of range [:9]" := by
  decide

/-! ## `SortCommitsDecreasing` -/

theorem sortCommitsDecreasing_files (commits : List Commit) :
    SortCommitsDecreasing commits "files"
      = .ok (SliceStable (fun a b => decide (a.Files > b.Files)) commits) := by
  unfold SortCommitsDecreasing
  have hok : (["timestamp", "files", "additions", "deletions", "users", "commits"].foldl
      (fun ok s => if "files" = s then true else ok) false) = true := by decide
  simp only [hok]
  exact sliceStableM_pure _ _ (fun _ _ => rfl) commits

theorem sortCommitsDecreasing_additions (commits : List Commit) :
    SortCommitsDecreasing commits "additions"
      = .ok (SliceStable (fun a b => decide (a.Additions > b.Additions)) commits) := by
  unfold SortCommitsDecreasing
  have hok : (["timestamp", "files", "additions", "deletions", "users", "commits"].foldl
      (fun ok s => if "additions" = s then true else ok) false) = true := by decide
  simp only [hok]
  exact sliceStableM_pure _ _ (fun _ _ => rfl) commits

theorem sortCommitsDecreasing_deletions (commits : List Commit) :
    SortCommitsDecreasing commits "deletions"
      = .ok (SliceStable (fun a b => decide (a.Deletions > b.Deletions)) commits) := by
  unfold SortCommitsDecreasing
  have hok : (["timestamp", "files", "additions", "deletions", "users", "commits"].foldl
      (fun ok s => if "deletions" = s then true else ok) false) = true := by decide
  simp only [hok]
  exact sliceStableM_pure _ _ (fun _ _ => rfl) commits

/-- For each of the four commit fields, `SortCommitsDecreasing` is the stable sort by
that field. -/
theorem sortCommitsDecreasing_field (commits : List Commit) (f : String) (g : Commit → Int)
    (hfg : (f, g) ∈ [("timestamp", Commit.Timestamp), ("files", Commit.Files),
      ("additions", Commit.Additions), ("deletions", Commit.Deletions)]) :
    SortCommitsDecreasing commits f
      = .ok (SliceStable (fun a b => decide (g a > g b)) commits) := by
  simp only [List.mem_cons, List.mem_singleton, List.not_mem_nil, or_false,
    Prod.mk.injEq] at hfg
  rcases hfg with ⟨h1, h2⟩ | ⟨h1, h2⟩ | ⟨h1, h2⟩ | ⟨h1, h2⟩ <;> subst h1 <;> subst h2
  · exact sortCommitsDecreasing_timestamp commits
  · exact sortCommitsDecreasing_files commits
  · exact sortCommitsDecreasing_additions commits
  · exact sortCommitsDecreasing_deletions commits

/-- C16: for every commit sequence and each filter `f` among `timestamp`, `files`,
`additions`, `deletions` (with `g` the field it names), `SortCommitsDecreasing` returns
a permutation of the input in which `g` is non-increasing and in which commits of equal
`g` keep their relative input order; for `timestamp` on a non-empty input, the element
at index `0` carries the latest timestamp of the input and the element at index
`len - 1` the earliest. -/
theorem sortCommitsDecreasing_spec (commits : List Commit) (f : String) (g : Commit → Int)
    (hfg : (f, g) ∈ [("timestamp", Commit.Timestamp), ("files", Commit.Files),
      ("additions", Commit.Additions), ("deletions", Commit.Deletions)]) :
    ∃ sorted, SortCommitsDecreasing commits f = .ok sorted ∧
      sorted.Perm commits ∧
      sorted.Pairwise (fun a b => g a ≥ g b) ∧
      (∀ a b : Commit, g a = g b → List.Sublist [a, b] commits →
        List.Sublist [a, b] sorted) ∧
      (∀ s : Int, sorted.filter (fun c => decide (g c = s))
        = commits.filter (fun c => decide (g c = s))) ∧
      (f = "timestamp" → commits ≠ [] →
        ∃ l e, index sorted 0 = .ok l ∧ index sorted (sorted.length - 1) = .ok e ∧
          l ∈ commits ∧ e ∈ commits ∧
          (∀ c ∈ commits, c.Timestamp ≤ l.Timestamp) ∧
          (∀ c ∈ commits, e.Timestamp ≤ c.Timestamp)) := by
  refine ⟨_, sortCommitsDecreasing_field commits f g hfg, sliceStable_perm _ commits,
    sliceStable_sorted g commits, fun a b hab h => sliceStable_pair g commits a b hab h,
    fun s => sliceStable_filter g s commits, ?_⟩
  intro hf hne
  have hg : g = Commit.Timestamp := by
    subst hf
    simp only [List.mem_cons, List.mem_singleton, List.not_mem_nil, or_false,
      Prod.mk.injEq] at hfg
    rcases hfg with ⟨_, h2⟩ | ⟨h1, _⟩ | ⟨h1, _⟩ | ⟨h1, _⟩
    · exact h2
    · exact absurd h1 (by decide)
    · exact absurd h1 (by decide)
    · exact absurd h1 (by decide)
  subst hg
  have hperm := sliceStable_perm
    (fun a b : Commit => decide (a.Timestamp > b.Timestamp)) commits
  have hsne : SliceStable (fun a b : Commit => decide (a.Timestamp > b.Timestamp)) commits
      ≠ [] := by
    intro h
    rw [h] at hperm
    exact hne hperm.symm.eq_nil
  obtain ⟨l, e, hl, he, hlmem, hemem, hmax, hmin⟩ :=
    sorted_first_last _ hsne (sliceStable_sorted Commit.Timestamp commits)
  exact ⟨l, e, hl, he, hperm.subset hlmem, hperm.subset hemem,
    fun c hc => hmax c (hperm.symm.subset hc), fun c hc => hmin c (hperm.symm.subset hc)⟩

/-- C16 (witness): the sort test of the repository by `files`. -/
theorem sortCommitsDecreasing_spec_witness :
    ("files", Commit.Files) ∈ [("timestamp", Commit.Timestamp), ("files", Commit.Files),
      ("additions", Commit.Additions), ("deletions", Commit.Deletions)] ∧
    ∃ sorted,
      SortCommitsDecreasing [⟨0, "", "repo1", 10, 0, 0⟩, ⟨0, "", "repo2", 30, 0, 0⟩,
        ⟨0, "", "repo3", 20, 0, 0⟩] "files" = .ok sorted ∧
      sorted.Perm [⟨0, "", "repo1", 10, 0, 0⟩, ⟨0, "", "repo2", 30, 0, 0⟩,
        ⟨0, "", "repo3", 20, 0, 0⟩] ∧
      sorted.Pairwise (fun a b => a.Files ≥ b.Files) :=
  ⟨List.mem_cons_of_mem _ (List.mem_cons_self _ _),
    (sortCommitsDecreasing_spec [⟨0, "", "repo1", 10, 0, 0⟩, ⟨0, "", "repo2", 30, 0, 0⟩,
      ⟨0, "", "repo3", 20, 0, 0⟩] "files" Commit.Files
      (List.mem_cons_of_mem _ (List.mem_cons_self _ _))).imp
      (fun _ h => ⟨h.1, h.2.1, h.2.2.1⟩)⟩

/-- C17: for every commit sequence, of any length, and every filter name outside
`timestamp`, `files`, `additions`, `deletions`, `users`, `commits`,
`SortCommitsDecreasing` panics with `"TypeError: unsupported type: "` followed by the
filter instead of returning a sequence. -/
theorem sortCommitsDecreasing_unsupported (commits : List Commit) (filter : String)
    (hf : filter ∉ ["timestamp", "files", "additions", "deletions", "users", "commits"]) :
    SortCommitsDecreasing commits filter
      = .error ("TypeError: unsupported type: " ++ filter) := by
  simp only [List.mem_cons, List.mem_singleton, List.not_mem_nil, or_false, not_or] at hf
  obtain ⟨h1, h2, h3, h4, h5, h6⟩ := hf
  unfold SortCommitsDecreasing
  simp only [List.foldl_cons, List.foldl_nil, h1, h2, h3, h4, h5, h6, if_false]
  rfl

/-- C17 (witness): the test `Invalid filter` of the repository, and the empty sequence. -/
theorem sortCommitsDecreasing_unsupported_witness :
    "invalid" ∉ ["timestamp", "files", "additions", "deletions", "users", "commits"] ∧
    SortCommitsDecreasing [⟨100, "", "", 0, 0, 0⟩] "invalid"
      = .error "TypeError: unsupported type: invalid" ∧
    SortCommitsDecreasing [] "invalid" = .error "TypeError: unsupported type: invalid" :=
  ⟨by decide,
    sortCommitsDecreasing_unsupported [⟨100, "", "", 0, 0, 0⟩] "invalid" (by decide),
    sortCommitsDecreasing_unsupported [] "invalid" (by decide)⟩

/-! ## `SortByScore` on sorted input -/

/-- C18: a list of repositories whose scores are already non-increasing is left
unchanged by `SortByScore` (`[100, 50, 25]` stays `[100, 50, 25]`); consequently
`SortByScore` is idempotent. -/
theorem sortByScore_of_sorted (repos : List Repository) :
    (repos.Pairwise (fun a b => a.Score ≥ b.Score) → SortByScore repos = repos) ∧
    SortByScore (SortByScore repos) = SortByScore repos ∧
    SortByScore [⟨"repo1", 100, []⟩, ⟨"repo2", 50, []⟩, ⟨"repo3", 25, []⟩]
      = [⟨"repo1", 100, []⟩, ⟨"repo2", 50, []⟩, ⟨"repo3", 25, []⟩] := by
  have key : ∀ rs : List Repository, rs.Pairwise (fun a b => a.Score ≥ b.Score) →
      SortByScore rs = rs := fun rs h =>
    (sliceStable_unique Repository.Score rs rs h (fun _ => rfl)).symm
  exact ⟨key repos, key _ (sliceStable_sorted Repository.Score repos), by decide⟩

/-- C18 (witness): the already sorted list with scores `100`, `100`, `50`. -/
theorem sortByScore_of_sorted_witness :
    [(⟨"repo1", 100, []⟩ : Repository), ⟨"repo2", 100, []⟩, ⟨"repo3", 50, []⟩].Pairwise
      (fun a b => a.Score ≥ b.Score) ∧
    SortByScore [⟨"repo1", 100, []⟩, ⟨"repo2", 100, []⟩, ⟨"repo3", 50, []⟩]
      = [⟨"repo1", 100, []⟩, ⟨"repo2", 100, []⟩, ⟨"repo3", 50, []⟩] :=
  ⟨by decide,
    (sortByScore_of_sorted
      [⟨"repo1", 100, []⟩, ⟨"repo2", 100, []⟩, ⟨"repo3", 50, []⟩]).1 (by decide)⟩

/-! ## `parseCommits` -/

theorem parseCommit_ok (P : String → Except String Int) (val : String → Int)
    (row : List String) (hlen : row.length = 6)
    (hp : ∀ j ∈ [0, 3, 4, 5], P (row.getD j "") = .ok (val (row.getD j ""))) :
    parseCommit P row = .ok (specRowCommit val row) := by
  rcases row with _ | ⟨a, _ | ⟨b, _ | ⟨c, _ | ⟨d, _ | ⟨e, _ | ⟨f, _ | ⟨g, rest⟩⟩⟩⟩⟩⟩⟩ <;>
    simp at hlen
  have h0 := hp 0 (by simp)
  have h3 := hp 3 (by simp)
  have h4 := hp 4 (by simp)
  have h5 := hp 5 (by simp)
  simp only [List.getD_cons_zero, List.getD_cons_succ] at h0 h3 h4 h5
  simp [parseCommit, parseField, index, ParseInt, specRowCommit, h0, h3, h4, h5]

theorem foldlM_parseCommitsStep (P : String → Except String Int) (val : String → Int)
    (rows : List (List String))
    (hrows : ∀ row ∈ rows, row.length = 6 ∧
      ∀ j ∈ [0, 3, 4, 5], P (row.getD j "") = .ok (val (row.getD j "")))
    (k : Nat) (hk : 0 < k) (acc : List Commit) :
    (rows.enumFrom k).foldlM (parseCommitsStep P) acc
      = .ok (acc ++ rows.map (specRowCommit val)) := by
  induction rows generalizing k acc with
  | nil => simp [List.enumFrom]; rfl
  | cons row rows ih =>
    have hrow := hrows row (List.mem_cons_self _ _)
    have hstep : parseCommitsStep P acc (k, row) = .ok (acc ++ [specRowCommit val row]) := by
      unfold parseCommitsStep
      simp only [hk, if_true, gt_iff_lt]
      rw [parseCommit_ok P val row hrow.1 hrow.2]
    simp only [List.enumFrom, List.foldlM_cons, hstep]
    show List.foldlM (parseCommitsStep P) (acc ++ [specRowCommit val row])
      (List.enumFrom (k + 1) rows) = _
    rw [ih (fun r hr => hrows r (List.mem_cons_of_mem _ hr)) (k + 1) (by omega)]
    simp

theorem specRowCommit_user_ne (val : String → Int) (row : List String) :
    (specRowCommit val row).User ≠ "" := by
  unfold specRowCommit
  simp only
  split_ifs with h
  · decide
  · exact h

/-- C19: for every table whose rows after the first have six fields with numeric
fields that parse, `parseCommits` skips the first (header) row and returns exactly one
commit per remaining row, in row order, with the fields of the row and the user
replaced by `"unknown"` when empty; no parsed commit has an empty user. The empty table
gives no commits. -/
theorem parseCommits_spec (P : String → Except String Int) (val : String → Int)
    (header : List String) (rows : List (List String))
    (hrows : ∀ row ∈ rows, row.length = 6 ∧
      ∀ j ∈ [0, 3, 4, 5], P (row.getD j "") = .ok (val (row.getD j ""))) :
    ∃ commits, parseCommits P (header :: rows) = .ok commits ∧
      commits = rows.map (specRowCommit val) ∧
      commits.length = rows.length ∧
      (∀ c ∈ commits, c.User ≠ "") ∧
      parseCommits P [] = .ok [] := by
  refine ⟨_, ?_, rfl, by simp, ?_, rfl⟩
  · unfold parseCommits
    simp only [List.enum, List.enumFrom, List.foldlM_cons]
    have h0 : parseCommitsStep P [] (0, header) = .ok [] := rfl
    rw [h0]
    show List.foldlM (parseCommitsStep P) [] (List.enumFrom 1 rows) = _
    rw [foldlM_parseCommitsStep P val rows hrows 1 (by omega)]
    simp
  · intro c hc
    obtain ⟨row, _, rfl⟩ := List.mem_map.mp hc
    exact specRowCommit_user_ne val row

/-- C19 (witness): a header and two rows, the second with an empty user. -/
theorem parseCommits_spec_witness :
    (∀ row ∈ [["1678886400", "user1", "repo1", "10", "20", "5"],
        ["1678886401", "", "repo2", "5", "10", "2"]],
      row.length = 6 ∧ ∀ j ∈ [0, 3, 4, 5], parseDecimal (row.getD j "")
        = .ok ((fun s => match parseDecimal s with | .ok v => v | .error _ => 0)
            (row.getD j ""))) ∧
    parseCommits parseDecimal
        [["timestamp", "user", "repository", "files", "additions", "deletions"],
         ["1678886400", "user1", "repo1", "10", "20", "5"],
         ["1678886401", "", "repo2", "5", "10", "2"]]
      = .ok [⟨1678886400, "user1", "repo1", 10, 20, 5⟩,
             ⟨1678886401, "unknown", "repo2", 5, 10, 2⟩] := by
  refine ⟨by decide, ?_⟩
  obtain ⟨commits, h1, h2, _⟩ := parseCommits_spec parseDecimal
    (fun s => match parseDecimal s with | .ok v => v | .error _ => 0)
    ["timestamp", "user", "repository", "files", "additions", "deletions"]
    [["1678886400", "user1", "repo1", "10", "20", "5"],
     ["1678886401", "", "repo2", "5", "10", "2"]] (by decide)
  rw [h1, h2]
  decide

/-! ## `ParseArgs` -/

/-- One argument that is neither a help, version nor day-count flag, and that is
followed by a value if it is a file or target flag, leaves `numberOfDays` unchanged. -/
theorem parseArgsLoop_cons_benign (P : String → Except String Int) (a : String)
    (rest : List String) (st : ParsedArgs)
    (ha : a ∉ ["-h", "--help", "-v", "--version", "-n", "--numberOfDays"])
    (hidx : a ∈ ["-f", "--filename", "-t", "--target"] → ∃ v, index rest 0 = .ok v) :
    ∃ st1, parseArgsLoop P (a :: rest) st = parseArgsLoop P rest st1 ∧
      st1.numberOfDays = st.numberOfDays := by
  simp only [List.mem_cons, List.mem_singleton, List.not_mem_nil, or_false, not_or] at ha
  obtain ⟨a1, a2, a3, a4, a5, a6⟩ := ha
  by_cases hf : a = "-f" ∨ a = "--filename"
  · obtain ⟨v, hv⟩ := hidx (by
      simp only [List.mem_cons, List.mem_singleton, List.not_mem_nil, or_false]
      rcases hf with h | h <;> simp [h])
    refine ⟨{ st with filepath := v }, ?_, rfl⟩
    rcases hf with h | h <;> subst h <;> simp only [parseArgsLoop, hv]
  · by_cases ht : a = "-t" ∨ a = "--target"
    · obtain ⟨v, hv⟩ := hidx (by
        simp only [List.mem_cons, List.mem_singleton, List.not_mem_nil, or_false]
        rcases ht with h | h <;> simp [h])
      refine ⟨{ st with scoringFilter := v }, ?_, rfl⟩
      rcases ht with h | h <;> subst h <;> simp only [parseArgsLoop, hv]
    · by_cases hd : a = "-d" ∨ a = "--debug"
      · refine ⟨{ st with debug := true }, ?_, rfl⟩
        rcases hd with h | h <;> subst h <;> simp only [parseArgsLoop]
      · refine ⟨st, ?_, rfl⟩
        simp only [not_or] at hf ht hd
        obtain ⟨f1, f2⟩ := hf
        obtain ⟨t1, t2⟩ := ht
        obtain ⟨d1, d2⟩ := hd
        rw [parseArgsLoop] <;> intro h <;> contradiction

/-- A run of arguments without help, version and day-count flags is passed over with
`numberOfDays` unchanged, provided a file or target flag at its very end is followed by
something. -/
theorem parseArgsLoop_benign (P : String → Except String Int) (pre l2 : List String)
    (st : ParsedArgs)
    (hpre : ∀ a ∈ pre, a ∉ ["-h", "--help", "-v", "--version", "-n", "--numberOfDays"])
    (hlast : l2 = [] → ∀ x, pre.getLast? = some x →
      x ∉ ["-f", "--filename", "-t", "--target"]) :
    ∃ st2, parseArgsLoop P (pre ++ l2) st = parseArgsLoop P l2 st2 ∧
      st2.numberOfDays = st.numberOfDays := by
  induction pre generalizing st with
  | nil => exact ⟨st, rfl, rfl⟩
  | cons a rest ih =>
    have ha := hpre a (List.mem_cons_self _ _)
    have hrest : ∀ b ∈ rest, b ∉ ["-h", "--help", "-v", "--version", "-n", "--numberOfDays"] :=
      fun b hb => hpre b (List.mem_cons_of_mem _ hb)
    have hlast2 : l2 = [] → ∀ x, rest.getLast? = some x →
        x ∉ ["-f", "--filename", "-t", "--target"] := by
      intro hl x hx
      apply hlast hl x
      cases rest with
      | nil => simp at hx
      | cons r rs => simpa using hx
    have hidx : a ∈ ["-f", "--filename", "-t", "--target"] →
        ∃ v, index (rest ++ l2) 0 = .ok v := by
      intro hav
      cases hr : rest ++ l2 with
      | nil =>
        exfalso
        have h1 : rest = [] := (List.append_eq_nil.mp hr).1
        have h2 : l2 = [] := (List.append_eq_nil.mp hr).2
        subst h1
        exact hlast h2 a (by simp) hav
      | cons v tl => exact ⟨v, index_zero_cons v tl⟩
    obtain ⟨st1, h1, hn1⟩ := parseArgsLoop_cons_benign P a (rest ++ l2) st ha hidx
    obtain ⟨st2, h2, hn2⟩ := ih st1 hrest hlast2
    exact ⟨st2, by rw [List.cons_append, h1, h2], by rw [hn2, hn1]⟩

/-- The step of the loop at a day-count flag followed by a value that parses to `k`. -/
theorem parseArgsLoop_days (P : String → Except String Int) (flag v : String)
    (rest : List String) (st : ParsedArgs) (k : Int)
    (hflag : flag ∈ ["-n", "--numberOfDays"]) (hv : P v = .ok k) :
    parseArgsLoop P (flag :: v :: rest) st =
      if k ≤ 0 then .error (.panic "number of days mus be bigger than 0")
      else parseArgsLoop P (v :: rest) { st with numberOfDays := k } := by
  simp only [List.mem_cons, List.mem_singleton, List.not_mem_nil, or_false] at hflag
  have hidx : index (v :: rest) 0 = .ok v := index_zero_cons v rest
  have hparse : ParseInt P v = .ok k := by unfold ParseInt; rw [hv]
  rcases hflag with h | h <;> subst h <;> rw [parseArgsLoop] <;> simp only [hidx, hparse]

/-- C20 (counterexample): in `blipper -n 5 -h` the flag `-n` is followed by `5`, which
parses to `5 > 0`, but `ParseArgs` does not return `5`: at `-h` it prints the help text
and ends the process with status `0`. The other ways in which the claim fails:
`blipper -v -n -1` ends with status `0` at `-v` although `-1 ≤ 0`;
`blipper -n 3 -n 5` returns `5` although `-n` is followed by `3`;
`blipper -n 0 -n 5` panics although `-n` is followed by `5`;
`blipper -n 5 -v` ends with status `0` at `-v`;
`blipper -n 5 -f` panics at the missing value of `-f`; and without any `-n`,
`blipper -h` ends with status `0` and `blipper -t` panics instead of returning the
default. -/
theorem parseArgs_help_after_days :
    parseDecimal "5" = .ok 5 ∧
    ParseArgs parseDecimal ["blipper", "-n", "5", "-h"] "./commits.csv" "" "0.0.1" 100 false
      = .error (.exit 0) ∧
    parseDecimal "-1" = .ok (-1) ∧
    ParseArgs parseDecimal ["blipper", "-v", "-n", "-1"] "./commits.csv" "" "0.0.1" 100 false
      = .error (.exit 0) ∧
    parseDecimal "3" = .ok 3 ∧
    ParseArgs parseDecimal ["blipper", "-n", "3", "-n", "5"] "./commits.csv" "" "0.0.1" 100
        false
      = .ok ("./commits.csv", 5, "", false) ∧
    parseDecimal "0" = .ok 0 ∧
    ParseArgs parseDecimal ["blipper", "-n", "0", "-n", "5"] "./commits.csv" "" "0.0.1" 100
        false
      = .error (.panic "number of days mus be bigger than 0") ∧
    ParseArgs parseDecimal ["blipper", "-n", "5", "-v"] "./commits.csv" "" "0.0.1" 100 false
      = .error (.exit 0) ∧
    ParseArgs parseDecimal ["blipper", "-n", "5", "-f"] "./commits.csv" "" "0.0.1" 100 false
      = .error (.panic "runtime error: index out of range") ∧
    ParseArgs parseDecimal ["blipper", "-h"] "./commits.csv" "" "0.0.1" 100 false
      = .error (.exit 0) ∧
    ParseArgs parseDecimal ["blipper", "-t"] "./commits.csv" "" "0.0.1" 100 false
      = .error (.panic "runtime error: index out of range") := by
  refine ⟨by decide, by decide, by decide, by decide, by decide, by decide, by decide,
    by decide, by decide, by decide, by decide, by decide⟩

/-- C20 (amended): let the argument list be the program name, arguments `pre`, a flag
`-n` or `--numberOfDays`, a value `v` that parses to the integer `k`, and arguments
`post`, where no argument of `pre` is `-h`, `--help`, `-v`, `--version`, `-n` or
`--numberOfDays`. If `k ≤ 0`, `ParseArgs` panics with the message
`number of days mus be bigger than 0`. If `k > 0` and also none of `v`, `post` is one
of those six flags and the last argument is not `-f`, `--filename`, `-t` or `--target`,
`ParseArgs` returns `k` as `numberOfDays`. For an argument list without those six flags
whose last argument is not `-f`, `--filename`, `-t` or `--target`, the `numberOfDays`
passed in is returned unchanged. -/
theorem parseArgs_numberOfDays (P : String → Except String Int) (prog : String)
    (filepath scoringFilter version : String) (numberOfDays : Int) (debug : Bool) :
    (∀ (pre post : List String) (flag v : String) (k : Int),
      flag ∈ ["-n", "--numberOfDays"] → P v = .ok k →
      (∀ a ∈ pre, a ∉ ["-h", "--help", "-v", "--version", "-n", "--numberOfDays"]) →
      (k ≤ 0 →
        ParseArgs P (prog :: (pre ++ flag :: v :: post)) filepath scoringFilter version
            numberOfDays debug
          = .error (.panic "number of days mus be bigger than 0")) ∧
      (0 < k →
        (∀ a ∈ v :: post, a ∉ ["-h", "--help", "-v", "--version", "-n", "--numberOfDays"]) →
        (∀ x, (v :: post).getLast? = some x → x ∉ ["-f", "--filename", "-t", "--target"]) →
        ∃ fp sf dbg,
          ParseArgs P (prog :: (pre ++ flag :: v :: post)) filepath scoringFilter version
              numberOfDays debug
            = .ok (fp, k, sf, dbg))) ∧
    (∀ rest : List String,
      (∀ a ∈ rest, a ∉ ["-h", "--help", "-v", "--version", "-n", "--numberOfDays"]) →
      (∀ x, rest.getLast? = some x → x ∉ ["-f", "--filename", "-t", "--target"]) →
      ∃ fp sf dbg,
        ParseArgs P (prog :: rest) filepath scoringFilter version numberOfDays debug
          = .ok (fp, numberOfDays, sf, dbg)) := by
  constructor
  · intro pre post flag v k hflag hv hpre
    obtain ⟨st2, h2, _⟩ := parseArgsLoop_benign P pre (flag :: v :: post)
      { filepath := filepath, numberOfDays := numberOfDays,
        scoringFilter := scoringFilter, debug := debug } hpre
      (fun h => absurd h (List.cons_ne_nil _ _))
    have h3 := parseArgsLoop_days P flag v post st2 k hflag hv
    constructor
    · intro hk
      unfold ParseArgs
      simp only [List.drop_succ_cons, List.drop_zero]
      rw [h2, h3, if_pos hk]
    · intro hk hpost hlast
      obtain ⟨st4, h4, hn4⟩ := parseArgsLoop_benign P (v :: post) []
        { st2 with numberOfDays := k } hpost (fun _ => hlast)
      rw [List.append_nil] at h4
      refine ⟨st4.filepath, st4.scoringFilter, st4.debug, ?_⟩
      unfold ParseArgs
      simp only [List.drop_succ_cons, List.drop_zero]
      rw [h2, h3, if_neg (by omega), h4]
      simp only [parseArgsLoop, hn4]
  · intro rest hrest hlast
    obtain ⟨st2, h2, hn2⟩ := parseArgsLoop_benign P rest []
      { filepath := filepath, numberOfDays := numberOfDays,
        scoringFilter := scoringFilter, debug := debug } hrest (fun _ => hlast)
    rw [List.append_nil] at h2
    refine ⟨st2.filepath, st2.scoringFilter, st2.debug, ?_⟩
    unfold ParseArgs
    simp only [List.drop_succ_cons, List.drop_zero]
    rw [h2]
    simp only [parseArgsLoop, hn2]

/-- C20 (witness): the tests `Combined flags`, `Invalid NumberOfDays` and `Debug flag`
of the repository. -/
theorem parseArgs_numberOfDays_witness :
    ("-n" ∈ ["-n", "--numberOfDays"] ∧ parseDecimal "25" = .ok 25 ∧ (0 : Int) < 25 ∧
      ∃ fp sf dbg,
        ParseArgs parseDecimal ["blipper", "-f", "data.csv", "-n", "25", "-t", "files", "-d"]
            "./commits.csv" "" "0.0.1" 100 false
          = .ok (fp, 25, sf, dbg)) ∧
    (parseDecimal "-1" = .ok (-1) ∧ (-1 : Int) ≤ 0 ∧
      ParseArgs parseDecimal ["blipper", "-n", "-1"] "./commits.csv" "" "0.0.1" 100 false
        = .error (.panic "number of days mus be bigger than 0")) ∧
    (∃ fp sf dbg,
      ParseArgs parseDecimal ["blipper", "-d"] "./commits.csv" "" "0.0.1" 100 false
        = .ok (fp, 100, sf, dbg)) :=
  ⟨⟨by decide, by decide, by decide,
      ((parseArgs_numberOfDays parseDecimal "blipper" "./commits.csv" "" "0.0.1" 100 false).1
        ["-f", "data.csv"] ["-t", "files", "-d"] "-n" "25" 25 (by decide) (by decide)
        (by decide)).2 (by decide) (by decide) (by decide)⟩,
    ⟨by decide, by decide,
      ((parseArgs_numberOfDays parseDecimal "blipper" "./commits.csv" "" "0.0.1" 100 false).1
        [] [] "-n" "-1" (-1) (by decide) (by decide) (by decide)).1 (by decide)⟩,
    (parseArgs_numberOfDays parseDecimal "blipper" "./commits.csv" "" "0.0.1" 100 false).2
      ["-d"] (by decide) (by decide)⟩

/-! ## `SortCommitsDecreasing` by `users` or `commits` -/

/-- With a comparison that always panics, the stable sort returns slices of fewer than
two elements unchanged and panics on every longer slice. -/
theorem sliceStableM_failing {α : Type} (lessM : α → α → Except String Bool) (e : String)
    (h : ∀ a b, lessM a b = .error e) (xs : List α) :
    SliceStableM lessM xs = if xs.length < 2 then .ok xs else .error e := by
  induction xs with
  | nil => rfl
  | cons x xs ih =>
    unfold SliceStableM
    rw [ih]
    cases xs with
    | nil => rfl
    | cons y ys =>
      cases ys with
      | nil =>
        simp only [List.length_singleton, Nat.one_lt_ofNat, if_true]
        unfold insertStableM
        rw [h y x]
        rfl
      | cons z zs =>
        have h1 : ¬ (y :: z :: zs).length < 2 := by simp
        have h2 : ¬ (x :: y :: z :: zs).length < 2 := by simp
        rw [if_neg h1, if_neg h2]

theorem sortCommitsDecreasing_users (commits : List Commit) :
    SortCommitsDecreasing commits "users"
      = if commits.length < 2 then .ok commits
        else .error "TypeError: unsupported type: users" := by
  unfold SortCommitsDecreasing
  have hok : (["timestamp", "files", "additions", "deletions", "users", "commits"].foldl
      (fun ok s => if "users" = s then true else ok) false) = true := by decide
  simp only [hok]
  exact sliceStableM_failing _ _ (fun _ _ => rfl) commits

theorem sortCommitsDecreasing_commits (commits : List Commit) :
    SortCommitsDecreasing commits "commits"
      = if commits.length < 2 then .ok commits
        else .error "TypeError: unsupported type: commits" := by
  unfold SortCommitsDecreasing
  have hok : (["timestamp", "files", "additions", "deletions", "users", "commits"].foldl
      (fun ok s => if "commits" = s then true else ok) false) = true := by decide
  simp only [hok]
  exact sliceStableM_failing _ _ (fun _ _ => rfl) commits

/-- C22: for the filters `users` and `commits`, which pass the membership validation,
`SortCommitsDecreasing` panics with `"TypeError: unsupported type: "` followed by the
filter on every commit sequence with at least two commits (the comparison calls
`GetValue`, which does not know these names), and returns the input unchanged on every
sequence with fewer than two commits. -/
theorem sortCommitsDecreasing_users_commits (commits : List Commit) (filter : String)
    (hf : filter ∈ ["users", "commits"]) :
    (2 ≤ commits.length →
      SortCommitsDecreasing commits filter
        = .error ("TypeError: unsupported type: " ++ filter)) ∧
    (commits.length < 2 → SortCommitsDecreasing commits filter = .ok commits) := by
  simp only [List.mem_cons, List.mem_singleton, List.not_mem_nil, or_false] at hf
  rcases hf with h | h <;> subst h
  · rw [sortCommitsDecreasing_users]
    constructor
    · intro hl; rw [if_neg (by omega)]; rfl
    · intro hl; rw [if_pos hl]
  · rw [sortCommitsDecreasing_commits]
    constructor
    · intro hl; rw [if_neg (by omega)]; rfl
    · intro hl; rw [if_pos hl]

/-- C22 (witness): two commits with filter `users` panic; one commit with filter
`commits` and the empty sequence with filter `users` come back unchanged. -/
theorem sortCommitsDecreasing_users_commits_witness :
    "users" ∈ ["users", "commits"] ∧ "commits" ∈ ["users", "commits"] ∧
    2 ≤ [(⟨100, "a", "r1", 0, 0, 0⟩ : Commit), ⟨300, "b", "r2", 0, 0, 0⟩].length ∧
    SortCommitsDecreasing [⟨100, "a", "r1", 0, 0, 0⟩, ⟨300, "b", "r2", 0, 0, 0⟩] "users"
      = .error "TypeError: unsupported type: users" ∧
    SortCommitsDecreasing [⟨100, "a", "r1", 0, 0, 0⟩] "commits"
      = .ok [⟨100, "a", "r1", 0, 0, 0⟩] ∧
    SortCommitsDecreasing [] "users" = .ok [] :=
  ⟨by decide, by decide, by decide,
    (sortCommitsDecreasing_users_commits
      [⟨100, "a", "r1", 0, 0, 0⟩, ⟨300, "b", "r2", 0, 0, 0⟩] "users" (by decide)).1
      (by decide),
    (sortCommitsDecreasing_users_commits [⟨100, "a", "r1", 0, 0, 0⟩] "commits"
      (by decide)).2 (by decide),
    (sortCommitsDecreasing_users_commits [] "users" (by decide)).2 (by decide)⟩

/-! ## `SortByScore` and the enumeration order of the grouping map -/

/-- In a list with pairwise distinct keys at most one element has a given key. -/
theorem filter_key_length_le_one {α : Type} (key : α → Int) (s : Int) (xs : List α)
    (hd : xs.Pairwise (fun a b => key a ≠ key b)) :
    (xs.filter (fun a => decide (key a = s))).length ≤ 1 := by
  have hp := hd.filter (fun a => decide (key a = s))
  have hall : ∀ a ∈ xs.filter (fun a => decide (key a = s)), key a = s := by
    intro a ha
    exact of_decide_eq_true (List.mem_filter.mp ha).2
  cases hfl : xs.filter (fun a => decide (key a = s)) with
  | nil => simp
  | cons a rest =>
    cases rest with
    | nil => simp
    | cons b rest2 =>
      rw [hfl] at hp hall
      exfalso
      have hab := (List.pairwise_cons.mp hp).1 b (List.mem_cons_self _ _)
      exact hab ((hall a (List.mem_cons_self _ _)).trans
        (hall b (List.mem_cons_of_mem _ (List.mem_cons_self _ _))).symm)

/-- The stable sort of two permutations of a list with pairwise distinct keys is the
same list. -/
theorem sliceStable_perm_invariant {α : Type} (key : α → Int) (xs ys : List α)
    (hperm : xs.Perm ys) (hd : xs.Pairwise (fun a b => key a ≠ key b)) :
    SliceStable (fun a b => decide (key a > key b)) xs
      = SliceStable (fun a b => decide (key a > key b)) ys := by
  apply sliceStable_unique key ys _ (sliceStable_sorted key xs)
  intro s
  rw [sliceStable_filter]
  have hp : (xs.filter (fun a => decide (key a = s))).Perm
      (ys.filter (fun a => decide (key a = s))) := hperm.filter _
  have hlen := filter_key_length_le_one key s xs hd
  cases hfl : xs.filter (fun a => decide (key a = s)) with
  | nil =>
    rw [hfl] at hp
    exact hp.nil_eq
  | cons a rest =>
    cases rest with
    | nil =>
      rw [hfl] at hp
      exact List.singleton_perm.mp hp
    | cons b rest2 =>
      rw [hfl] at hlen
      simp at hlen

/-- C23: for every two lists of repositories that are permutations of each other and
whose scores are pairwise distinct, `SortByScore` produces the same list: with distinct
scores the ranking does not depend on the order in which the grouping map was
enumerated. -/
theorem sortByScore_order_independent (repos1 repos2 : List Repository)
    (hperm : repos1.Perm repos2)
    (hdistinct : repos1.Pairwise (fun a b => a.Score ≠ b.Score)) :
    SortByScore repos1 = SortByScore repos2 :=
  sliceStable_perm_invariant Repository.Score repos1 repos2 hperm hdistinct

/-- C23 (witness): the three repositories of the sort test in two enumeration orders. -/
theorem sortByScore_order_independent_witness :
    [(⟨"repo2", 50, []⟩ : Repository), ⟨"repo1", 100, []⟩, ⟨"repo3", 25, []⟩].Perm
      [⟨"repo3", 25, []⟩, ⟨"repo2", 50, []⟩, ⟨"repo1", 100, []⟩] ∧
    [(⟨"repo2", 50, []⟩ : Repository), ⟨"repo1", 100, []⟩, ⟨"repo3", 25, []⟩].Pairwise
      (fun a b => a.Score ≠ b.Score) ∧
    SortByScore [⟨"repo2", 50, []⟩, ⟨"repo1", 100, []⟩, ⟨"repo3", 25, []⟩]
      = SortByScore [⟨"repo3", 25, []⟩, ⟨"repo2", 50, []⟩, ⟨"repo1", 100, []⟩] :=
  ⟨by decide, by decide,
    sortByScore_order_independent _ _ (by decide) (by decide)⟩

/-! ## The composite score without overflow of the time span -/

theorem fieldSum_perm (g : Commit → Int) (xs ys : List Commit) (h : xs.Perm ys) :
    fieldSum g xs = fieldSum g ys := by
  unfold fieldSum
  exact (h.map g).sum_eq

/-- When the span between the earliest and the latest timestamp does not overflow, the
recency term of every group is `100` and the composite score is the weighted sum of the
group's files, additions, deletions and commit count, in `int64`. -/
theorem compositeScore_of_span (commits : List Commit) (numberOfDays : Int)
    (hne : commits ≠ [])
    (hts : ∀ c ∈ commits, InInt64 c.Timestamp)
    (hspan : ∀ a ∈ commits, ∀ b ∈ commits, InInt64 (a.Timestamp - b.Timestamp))
    (k : String) (r : Repository)
    (hmem : (k, r) ∈ GroupByRepository
      (SliceStable (fun a b => decide (a.Timestamp > b.Timestamp)) commits)) :
    compositeScore (SliceStable (fun a b => decide (a.Timestamp > b.Timestamp)) commits)
        numberOfDays r
      = .ok (wrap64 (100 + 10 * fieldSum Commit.Files r.Commits
          + fieldSum Commit.Additions r.Commits + fieldSum Commit.Deletions r.Commits
          + 7 * (r.Commits.length : Int))) := by
  have hperm : (SliceStable (fun a b => decide (a.Timestamp > b.Timestamp)) commits).Perm
      commits := sliceStable_perm _ commits
  have hsne : SliceStable (fun a b => decide (a.Timestamp > b.Timestamp)) commits ≠ [] := by
    intro h
    rw [h] at hperm
    exact hne hperm.symm.eq_nil
  obtain ⟨l, f, hl, hf, hlmem, hfmem, hmax, _⟩ :=
    sorted_first_last _ hsne (sliceStable_sorted Commit.Timestamp commits)
  have hlc : l ∈ commits := hperm.subset hlmem
  have hfc : f ∈ commits := hperm.subset hfmem
  obtain ⟨_, hrne⟩ := groupByRepository_mem _ k r hmem
  rcases List.eq_nil_or_concat r.Commits with h | ⟨cs, c, h⟩
  · exact absurd h hrne
  · rw [List.concat_eq_append] at h
    rw [compositeScore_eq _ numberOfDays l f hl hf r cs c h _ _ _ _ _
      (scoreByFilter_files r) (scoreByFilter_additions r) (scoreByFilter_deletions r)
      (scoreByFilter_users r) (scoreByFilter_commits r),
      scoreByLastUpdate_eq_zero c l.Timestamp f.Timestamp numberOfDays (hts f hfc)
        (hts l hlc) (hmax f hfmem) (hspan l hlc f hfc)]
    congr 1
    generalize fieldSum Commit.Files r.Commits = sf
    generalize fieldSum Commit.Additions r.Commits = sa
    generalize fieldSum Commit.Deletions r.Commits = sd
    generalize (r.Commits.length : Int) = n
    unfold wrap64
    omega

theorem insertStable_map {α β : Type} (f : β → α) (less : α → α → Bool) (x : β)
    (ys : List β) :
    insertStable less (f x) (ys.map f)
      = (insertStable (fun a b => less (f a) (f b)) x ys).map f := by
  induction ys with
  | nil => rfl
  | cons y ys ih =>
    simp only [List.map_cons, insertStable]
    split
    · rw [ih]; rfl
    · rfl

/-- Sorting the images under `f` is sorting by the comparison pulled back along `f`. -/
theorem sliceStable_map {α β : Type} (f : β → α) (less : α → α → Bool) (xs : List β) :
    SliceStable less (xs.map f)
      = (SliceStable (fun a b => less (f a) (f b)) xs).map f := by
  induction xs with
  | nil => rfl
  | cons x xs ih =>
    simp only [List.map_cons, SliceStable]
    rw [ih, insertStable_map]

theorem filter_map_eraseTimestamp (commits : List Commit) (k : String) :
    (commits.map eraseTimestamp).filter (fun c => decide (c.Repository = k))
      = (commits.filter (fun c => decide (c.Repository = k))).map eraseTimestamp := by
  induction commits with
  | nil => rfl
  | cons c cs ih =>
    have hc : (eraseTimestamp c).Repository = c.Repository := rfl
    by_cases h : c.Repository = k
    · simp only [List.map_cons, List.filter_cons, hc, h, decide_True, if_true, ih]
    · simp only [List.map_cons, List.filter_cons, hc, h, decide_False, Bool.false_eq_true,
        if_false, ih]

theorem fieldSum_map_eraseTimestamp (g : Commit → Int)
    (hg : ∀ c, g (eraseTimestamp c) = g c) (cs : List Commit) :
    fieldSum g (cs.map eraseTimestamp) = fieldSum g cs := by
  unfold fieldSum
  rw [List.map_map]
  congr 1
  exact List.map_congr_left (fun c _ => hg c)

/-- The formula does not read the timestamps. -/
theorem weightedScore_eraseTimestamp (commits : List Commit) (k : String) :
    weightedScore (commits.map eraseTimestamp) k = weightedScore commits k := by
  unfold weightedScore
  rw [filter_map_eraseTimestamp, fieldSum_map_eraseTimestamp Commit.Files (fun _ => rfl),
    fieldSum_map_eraseTimestamp Commit.Additions (fun _ => rfl),
    fieldSum_map_eraseTimestamp Commit.Deletions (fun _ => rfl), List.length_map]

/-- The loop over the entries of the grouping map when every entry can be scored. -/
theorem foldlM_compositeStep (sorted : List Commit) (numberOfDays : Int) (debug : Bool)
    (score : String × Repository → Int) (order : List (String × Repository))
    (hall : ∀ kr ∈ order, compositeScore sorted numberOfDays kr.2 = .ok (score kr))
    (acc : List Repository) :
    order.foldlM (compositeStep sorted numberOfDays debug) acc
      = .ok (acc ++ order.map (fun kr =>
          { Repository := kr.2.Repository
            Score := score kr
            Commits := if debug then kr.2.Commits else [] })) := by
  induction order generalizing acc with
  | nil => simp; rfl
  | cons kr rest ih =>
    have hstep : compositeStep sorted numberOfDays debug acc kr
        = .ok (acc ++ [{ Repository := kr.2.Repository
                         Score := score kr
                         Commits := if debug then kr.2.Commits else [] }]) := by
      unfold compositeStep
      rw [hall kr (List.mem_cons_self _ _)]
    simp only [List.foldlM_cons, hstep]
    show List.foldlM (compositeStep sorted numberOfDays debug) _ rest = _
    rw [ih (fun kr2 h => hall kr2 (List.mem_cons_of_mem _ h))]
    simp

/-- Without overflow of the time span, the ranking (repository and score of each entry,
in ranked order) is the stable sort, by the score of the formula, of the repository
identifiers in the order in which the grouping map was enumerated. -/
theorem compositeRanking_of_span (commits : List Commit) (numberOfDays : Int) (debug : Bool)
    (hne : commits ≠ [])
    (hts : ∀ c ∈ commits, InInt64 c.Timestamp)
    (hspan : ∀ a ∈ commits, ∀ b ∈ commits, InInt64 (a.Timestamp - b.Timestamp))
    (order : List (String × Repository))
    (horder : order.Perm (GroupByRepository
      (SliceStable (fun a b => decide (a.Timestamp > b.Timestamp)) commits))) :
    ∃ ranked,
      compositeRanking (SliceStable (fun a b => decide (a.Timestamp > b.Timestamp)) commits)
        numberOfDays debug order = .ok ranked ∧
      ranked.map (fun r => (r.Repository, r.Score))
        = (SortByScore ((order.map Prod.fst).map (fun k =>
            ({ Repository := k
               Score := weightedScore (commits.map eraseTimestamp) k
               Commits := [] } : Repository)))).map (fun r => (r.Repository, r.Score)) := by
  have hall : ∀ kr ∈ order,
      compositeScore (SliceStable (fun a b => decide (a.Timestamp > b.Timestamp)) commits)
        numberOfDays kr.2 = .ok (weightedScore (commits.map eraseTimestamp) kr.1) ∧
      kr.2.Repository = kr.1 := by
    intro kr hkr
    have hmem : (kr.1, kr.2) ∈ GroupByRepository
        (SliceStable (fun a b => decide (a.Timestamp > b.Timestamp)) commits) :=
      horder.subset hkr
    have hr := (groupByRepository_mem _ kr.1 kr.2 hmem).1
    have hp : kr.2.Commits.Perm (commits.filter (fun c => decide (c.Repository = kr.1))) := by
      rw [hr]
      exact (sliceStable_perm _ commits).filter _
    refine ⟨?_, by rw [hr]⟩
    rw [compositeScore_of_span commits numberOfDays hne hts hspan kr.1 kr.2 hmem,
      weightedScore_eraseTimestamp]
    unfold weightedScore
    rw [fieldSum_perm _ _ _ hp, fieldSum_perm _ _ _ hp, fieldSum_perm _ _ _ hp, hp.length_eq]
  refine ⟨SortByScore (order.map (fun kr =>
      ({ Repository := kr.2.Repository
         Score := weightedScore (commits.map eraseTimestamp) kr.1
         Commits := if debug then kr.2.Commits else [] } : Repository))), ?_, ?_⟩
  · unfold compositeRanking
    rw [foldlM_compositeStep _ numberOfDays debug
      (fun kr => weightedScore (commits.map eraseTimestamp) kr.1) order
      (fun kr h => (hall kr h).1) []]
    rfl
  · simp only [SortByScore, List.map_map]
    rw [sliceStable_map, sliceStable_map, List.map_map, List.map_map]
    apply List.map_congr_left
    intro kr hkr
    have hin : kr ∈ order :=
      (sliceStable_perm _ order).subset hkr
    simp only [Function.comp, (hall kr hin).2]

/-- C21 (counterexample): two commits with timestamps `2^62` (repository `a`) and
`-2^62 - 2` (repository `b`), no files, additions or deletions. The span `2^63 + 2`
overflows `int64`, and with `numberOfDays = 2` the commit of `a` falls into bucket `1`:
the score of `a` is `106`, not `100 + 7 * 1 = 107`, and `b` is ranked before `a`; with
`numberOfDays = 1` the score of `a` is `107` and `a` is ranked before `b`. So the
timestamps and `numberOfDays` do influence the composite score and the ranking.
Moreover the sums are accumulated in `int64`: a single commit with `2^63 - 1` additions
has the score `-2^63 + 106`, not `100 + (2^63 - 1) + 7`. Finally, repositories of equal
score are ranked in the order in which the grouping map is enumerated, which Go leaves
unspecified: two commits of repositories `a` and `b` (both score `107`) are ranked
`a`, `b` or `b`, `a` according to that order. -/
theorem compositeScore_recency_not_constant :
    SortCommitsDecreasing [⟨-4611686018427387906, "u", "b", 0, 0, 0⟩,
        ⟨4611686018427387904, "u", "a", 0, 0, 0⟩] "timestamp"
      = .ok [⟨4611686018427387904, "u", "a", 0, 0, 0⟩,
             ⟨-4611686018427387906, "u", "b", 0, 0, 0⟩] ∧
    ("a", (⟨"a", 1, [⟨4611686018427387904, "u", "a", 0, 0, 0⟩]⟩ : Repository))
      ∈ GroupByRepository [⟨4611686018427387904, "u", "a", 0, 0, 0⟩,
          ⟨-4611686018427387906, "u", "b", 0, 0, 0⟩] ∧
    compositeScore [⟨4611686018427387904, "u", "a", 0, 0, 0⟩,
        ⟨-4611686018427387906, "u", "b", 0, 0, 0⟩] 2
        ⟨"a", 1, [⟨4611686018427387904, "u", "a", 0, 0, 0⟩]⟩ = .ok 106 ∧
    compositeScore [⟨4611686018427387904, "u", "a", 0, 0, 0⟩,
        ⟨-4611686018427387906, "u", "b", 0, 0, 0⟩] 1
        ⟨"a", 1, [⟨4611686018427387904, "u", "a", 0, 0, 0⟩]⟩ = .ok 107 ∧
    100 + 10 * fieldSum Commit.Files [⟨4611686018427387904, "u", "a", 0, 0, 0⟩]
      + fieldSum Commit.Additions [⟨4611686018427387904, "u", "a", 0, 0, 0⟩]
      + fieldSum Commit.Deletions [⟨4611686018427387904, "u", "a", 0, 0, 0⟩]
      + 7 * (([⟨4611686018427387904, "u", "a", 0, 0, 0⟩] : List Commit).length : Int)
      = 107 ∧
    compositeRanking [⟨4611686018427387904, "u", "a", 0, 0, 0⟩,
        ⟨-4611686018427387906, "u", "b", 0, 0, 0⟩] 2 false
        (GroupByRepository [⟨4611686018427387904, "u", "a", 0, 0, 0⟩,
          ⟨-4611686018427387906, "u", "b", 0, 0, 0⟩])
      = .ok [⟨"b", 107, []⟩, ⟨"a", 106, []⟩] ∧
    compositeRanking [⟨4611686018427387904, "u", "a", 0, 0, 0⟩,
        ⟨-4611686018427387906, "u", "b", 0, 0, 0⟩] 1 false
        (GroupByRepository [⟨4611686018427387904, "u", "a", 0, 0, 0⟩,
          ⟨-4611686018427387906, "u", "b", 0, 0, 0⟩])
      = .ok [⟨"a", 107, []⟩, ⟨"b", 107, []⟩] ∧
    SortCommitsDecreasing [⟨5, "u", "r", 0, 9223372036854775807, 0⟩] "timestamp"
      = .ok [⟨5, "u", "r", 0, 9223372036854775807, 0⟩] ∧
    ("r", (⟨"r", 1, [⟨5, "u", "r", 0, 9223372036854775807, 0⟩]⟩ : Repository))
      ∈ GroupByRepository [⟨5, "u", "r", 0, 9223372036854775807, 0⟩] ∧
    compositeScore [⟨5, "u", "r", 0, 9223372036854775807, 0⟩] 100
        ⟨"r", 1, [⟨5, "u", "r", 0, 9223372036854775807, 0⟩]⟩
      = .ok (-9223372036854775702) ∧
    100 + 10 * fieldSum Commit.Files [⟨5, "u", "r", 0, 9223372036854775807, 0⟩]
      + fieldSum Commit.Additions [⟨5, "u", "r", 0, 9223372036854775807, 0⟩]
      + fieldSum Commit.Deletions [⟨5, "u", "r", 0, 9223372036854775807, 0⟩]
      + 7 * (([⟨5, "u", "r", 0, 9223372036854775807, 0⟩] : List Commit).length : Int)
      = 9223372036854775914 ∧
    compositeRanking [⟨2, "u", "b", 0, 0, 0⟩, ⟨1, "u", "a", 0, 0, 0⟩] 100 false
        [("a", ⟨"a", 1, [⟨1, "u", "a", 0, 0, 0⟩]⟩), ("b", ⟨"b", 1, [⟨2, "u", "b", 0, 0, 0⟩]⟩)]
      = .ok [⟨"a", 107, []⟩, ⟨"b", 107, []⟩] ∧
    compositeRanking [⟨2, "u", "b", 0, 0, 0⟩, ⟨1, "u", "a", 0, 0, 0⟩] 100 false
        [("b", ⟨"b", 1, [⟨2, "u", "b", 0, 0, 0⟩]⟩), ("a", ⟨"a", 1, [⟨1, "u", "a", 0, 0, 0⟩]⟩)]
      = .ok [⟨"b", 107, []⟩, ⟨"a", 107, []⟩] := by
  refine ⟨by decide, by decide, by decide, by decide, by decide, by decide, by decide,
    by decide, by decide, by decide, by decide, by decide, by decide⟩

/-- C21 (amended): in composite mode, for every non-empty sequence of commits with
`int64` timestamps whose differences (in particular latest minus earliest) do not
overflow `int64`, every `numberOfDays` and every group of the grouping of the
timestamp-descending sorted commits, the final score is
`100 + 10*(sum of files) + (sum of additions) + (sum of deletions) + 7*(number of
commits of the group)` reduced to the `int64` range by wrap-around, hence that value
itself whenever it lies in the `int64` range; the group consists of the input commits
of its repository. Under this condition neither the timestamps nor `numberOfDays`
influence the composite score or the ranking: for every order in which the grouping
map is enumerated, the ranked repositories with their scores are the stable sort, by
the score of the formula, of the repository identifiers in that order; and a second run
whose commits differ from the first only in their timestamps, with any `numberOfDays`
and debug flag, that enumerates its map in the same order of identifiers, yields the
same ranked repositories and scores. -/
theorem compositeScore_constant_recency (commits : List Commit) (numberOfDays : Int)
    (hne : commits ≠ [])
    (hts : ∀ c ∈ commits, InInt64 c.Timestamp)
    (hspan : ∀ a ∈ commits, ∀ b ∈ commits, InInt64 (a.Timestamp - b.Timestamp)) :
    ∃ sorted, SortCommitsDecreasing commits "timestamp" = .ok sorted ∧
      (∀ k r, (k, r) ∈ GroupByRepository sorted →
        compositeScore sorted numberOfDays r
          = .ok (wrap64 (100 + 10 * fieldSum Commit.Files r.Commits
              + fieldSum Commit.Additions r.Commits + fieldSum Commit.Deletions r.Commits
              + 7 * (r.Commits.length : Int))) ∧
        (InInt64 (100 + 10 * fieldSum Commit.Files r.Commits
              + fieldSum Commit.Additions r.Commits + fieldSum Commit.Deletions r.Commits
              + 7 * (r.Commits.length : Int)) →
          compositeScore sorted numberOfDays r
            = .ok (100 + 10 * fieldSum Commit.Files r.Commits
              + fieldSum Commit.Additions r.Commits + fieldSum Commit.Deletions r.Commits
              + 7 * (r.Commits.length : Int))) ∧
        r.Commits.Perm (commits.filter (fun c => decide (c.Repository = k)))) ∧
      (∀ (debug : Bool) (order : List (String × Repository)),
        order.Perm (GroupByRepository sorted) →
        ∃ ranked, compositeRanking sorted numberOfDays debug order = .ok ranked ∧
          ranked.map (fun r => (r.Repository, r.Score))
            = (SortByScore ((order.map Prod.fst).map (fun k =>
                ({ Repository := k
                   Score := weightedScore (commits.map eraseTimestamp) k
                   Commits := [] } : Repository)))).map
                (fun r => (r.Repository, r.Score))) ∧
      (∀ (commits2 sorted2 : List Commit) (numberOfDays2 : Int) (debug debug2 : Bool)
          (order order2 : List (String × Repository)),
        (∀ c ∈ commits2, InInt64 c.Timestamp) →
        (∀ a ∈ commits2, ∀ b ∈ commits2, InInt64 (a.Timestamp - b.Timestamp)) →
        commits2.map eraseTimestamp = commits.map eraseTimestamp →
        SortCommitsDecreasing commits2 "timestamp" = .ok sorted2 →
        order.Perm (GroupByRepository sorted) →
        order2.Perm (GroupByRepository sorted2) →
        order2.map Prod.fst = order.map Prod.fst →
        ∃ ranked ranked2,
          compositeRanking sorted numberOfDays debug order = .ok ranked ∧
          compositeRanking sorted2 numberOfDays2 debug2 order2 = .ok ranked2 ∧
          ranked.map (fun r => (r.Repository, r.Score))
            = ranked2.map (fun r => (r.Repository, r.Score))) := by
  refine ⟨_, sortCommitsDecreasing_timestamp commits, ?_, ?_, ?_⟩
  · intro k r hmem
    have hscore := compositeScore_of_span commits numberOfDays hne hts hspan k r hmem
    refine ⟨hscore, ?_, ?_⟩
    · intro hin
      rw [hscore, wrap64_of_inInt64 hin]
    · rw [(groupByRepository_mem _ k r hmem).1]
      exact (sliceStable_perm _ commits).filter _
  · intro debug order horder
    exact compositeRanking_of_span commits numberOfDays debug hne hts hspan order horder
  · intro commits2 sorted2 numberOfDays2 debug debug2 order order2 hts2 hspan2 herase hs2
      horder horder2 hkeys
    have hne2 : commits2 ≠ [] := by
      intro h
      rw [h] at herase
      exact hne (List.map_eq_nil_iff.mp herase.symm)
    have he2 : sorted2 = SliceStable (fun a b => decide (a.Timestamp > b.Timestamp)) commits2 :=
      Except.ok.inj (hs2.symm.trans (sortCommitsDecreasing_timestamp commits2))
    subst he2
    obtain ⟨ranked, h1, h1r⟩ :=
      compositeRanking_of_span commits numberOfDays debug hne hts hspan order horder
    obtain ⟨ranked2, h2, h2r⟩ :=
      compositeRanking_of_span commits2 numberOfDays2 debug2 hne2 hts2 hspan2 order2 horder2
    exact ⟨ranked, ranked2, h1, h2, by rw [h1r, h2r, hkeys, herase]⟩

/-- C21 (witness): three commits of two repositories with timestamps `100`, `300`,
`200`. The group `r2` (one commit with 1 file, 2 additions, 3 deletions) scores
`100 + 10 + 2 + 3 + 7 = 122`, and the ranking is `r2` (122), `r1` (114). A second run on
the same commits with timestamps `7`, `5`, `9`, with `numberOfDays = 3` and the debug
flag set, that enumerates its map in the same order `r2`, `r1`, yields the same ranked
repositories and scores. -/
theorem compositeScore_constant_recency_witness :
    [(⟨100, "a", "r1", 0, 0, 0⟩ : Commit), ⟨300, "b", "r2", 1, 2, 3⟩,
      ⟨200, "c", "r1", 0, 0, 0⟩] ≠ [] ∧
    (∀ c ∈ [(⟨100, "a", "r1", 0, 0, 0⟩ : Commit), ⟨300, "b", "r2", 1, 2, 3⟩,
      ⟨200, "c", "r1", 0, 0, 0⟩], InInt64 c.Timestamp) ∧
    (∀ a ∈ [(⟨100, "a", "r1", 0, 0, 0⟩ : Commit), ⟨300, "b", "r2", 1, 2, 3⟩,
      ⟨200, "c", "r1", 0, 0, 0⟩],
      ∀ b ∈ [(⟨100, "a", "r1", 0, 0, 0⟩ : Commit), ⟨300, "b", "r2", 1, 2, 3⟩,
        ⟨200, "c", "r1", 0, 0, 0⟩], InInt64 (a.Timestamp - b.Timestamp)) ∧
    ∃ sorted,
      SortCommitsDecreasing [⟨100, "a", "r1", 0, 0, 0⟩, ⟨300, "b", "r2", 1, 2, 3⟩,
        ⟨200, "c", "r1", 0, 0, 0⟩] "timestamp" = .ok sorted ∧
      ("r2", (⟨"r2", 1, [⟨300, "b", "r2", 1, 2, 3⟩]⟩ : Repository))
        ∈ GroupByRepository sorted ∧
      compositeScore sorted 100 ⟨"r2", 1, [⟨300, "b", "r2", 1, 2, 3⟩]⟩ = .ok 122 ∧
      ∃ ranked ranked2,
        compositeRanking sorted 100 false (GroupByRepository sorted) = .ok ranked ∧
        compositeRanking
            [⟨9, "c", "r1", 0, 0, 0⟩, ⟨7, "a", "r1", 0, 0, 0⟩, ⟨5, "b", "r2", 1, 2, 3⟩] 3 true
            (GroupByRepository
              [⟨9, "c", "r1", 0, 0, 0⟩, ⟨7, "a", "r1", 0, 0, 0⟩,
                ⟨5, "b", "r2", 1, 2, 3⟩]).reverse
          = .ok ranked2 ∧
        ranked.map (fun r => (r.Repository, r.Score))
          = ranked2.map (fun r => (r.Repository, r.Score)) ∧
        ranked.map (fun r => (r.Repository, r.Score)) = [("r2", 122), ("r1", 114)] := by
  refine ⟨by decide, by decide, by decide, ?_⟩
  obtain ⟨sorted, hs, hscore, _, htwo⟩ :=
    compositeScore_constant_recency [⟨100, "a", "r1", 0, 0, 0⟩, ⟨300, "b", "r2", 1, 2, 3⟩,
      ⟨200, "c", "r1", 0, 0, 0⟩] 100 (by decide) (by decide) (by decide)
  have hs2 : SortCommitsDecreasing [⟨100, "a", "r1", 0, 0, 0⟩, ⟨300, "b", "r2", 1, 2, 3⟩,
      ⟨200, "c", "r1", 0, 0, 0⟩] "timestamp"
      = .ok [⟨300, "b", "r2", 1, 2, 3⟩, ⟨200, "c", "r1", 0, 0, 0⟩,
        ⟨100, "a", "r1", 0, 0, 0⟩] := by decide
  have he : sorted = [⟨300, "b", "r2", 1, 2, 3⟩, ⟨200, "c", "r1", 0, 0, 0⟩,
      ⟨100, "a", "r1", 0, 0, 0⟩] := Except.ok.inj (hs.symm.trans hs2)
  subst he
  have hm : ("r2", (⟨"r2", 1, [⟨300, "b", "r2", 1, 2, 3⟩]⟩ : Repository))
      ∈ GroupByRepository [⟨300, "b", "r2", 1, 2, 3⟩, ⟨200, "c", "r1", 0, 0, 0⟩,
        ⟨100, "a", "r1", 0, 0, 0⟩] := by decide
  obtain ⟨ranked, ranked2, h1, h2, h12⟩ :=
    htwo [⟨7, "a", "r1", 0, 0, 0⟩, ⟨5, "b", "r2", 1, 2, 3⟩, ⟨9, "c", "r1", 0, 0, 0⟩]
      [⟨9, "c", "r1", 0, 0, 0⟩, ⟨7, "a", "r1", 0, 0, 0⟩, ⟨5, "b", "r2", 1, 2, 3⟩] 3 false true
      (GroupByRepository [⟨300, "b", "r2", 1, 2, 3⟩, ⟨200, "c", "r1", 0, 0, 0⟩,
        ⟨100, "a", "r1", 0, 0, 0⟩])
      (GroupByRepository [⟨9, "c", "r1", 0, 0, 0⟩, ⟨7, "a", "r1", 0, 0, 0⟩,
        ⟨5, "b", "r2", 1, 2, 3⟩]).reverse
      (by decide) (by decide) (by decide) (by decide) (List.Perm.refl _)
      (List.reverse_perm _) (by decide)
  have hc : compositeRanking [⟨300, "b", "r2", 1, 2, 3⟩, ⟨200, "c", "r1", 0, 0, 0⟩,
      ⟨100, "a", "r1", 0, 0, 0⟩] 100 false
      (GroupByRepository [⟨300, "b", "r2", 1, 2, 3⟩, ⟨200, "c", "r1", 0, 0, 0⟩,
        ⟨100, "a", "r1", 0, 0, 0⟩])
      = .ok [⟨"r2", 122, []⟩, ⟨"r1", 114, []⟩] := by decide
  have hr : ranked = [⟨"r2", 122, []⟩, ⟨"r1", 114, []⟩] :=
    Except.ok.inj (h1.symm.trans hc)
  refine ⟨_, hs, hm, ((hscore _ _ hm).2.1 (by decide)).trans (by decide),
    ranked, ranked2, h1, h2, h12, ?_⟩
  rw [hr]
  rfl

end Blipper
